import Mathlib

/-!
Shallow embedding of the Wa-Tor step-transition engine from the
KirubelCode/WaTor-Project repository (Go).

Go grids hold pointers to entity structs (`*Fish`, `*Shark`); the step
functions mutate those structs in place (`fish.BreedCounter++`,
`shark.Energy--`) while writing the same pointers into a freshly
allocated next grid.  The embedding makes the heap explicit: an entity
value lives in a `Store` (a list indexed by allocation order) and a grid
cell holds an optional reference (`Option Ref`) into the store, `none`
standing for Go's `nil` cell.  Pointer mutation is `List.set` on the
store; `&Fish{}` / `&Shark{...}` allocation appends to the store.

Go's `rand.Shuffle` of the four direction offsets is abstracted as a
function `RFun` giving, per cell and per call site (slot 0: the shuffle
in `processFish` / the `findNearestFish` call in `processShark`; slot 1:
the `findEmptyAdjacent` call in `processShark`), the direction order that
call observes.  Every realizable sequence of shuffles corresponds to such
a function, and a function whose values are permutations of `dirs`
corresponds to realizable shuffles.

Machine integers: the counters and energies are Go `int`s; the simulated
populations stay far below 2^63, so they are embedded as `Int` with no
overflow reduction.  `(x + dx + g.Size) % g.Size` uses Go's `%` on
non-negative operands (x ∈ [0,N), dx ≥ -1, N ≥ 1), where it agrees with
`Int.emod`, the `%` used here.
-/

namespace WaTor

/-- Entity values, from fish.go / shark.go (src/unnamed/part_003):
`Fish{BreedCounter int}` and `Shark{BreedCounter int, Energy int}`. -/
inductive EntityVal where
  | fish (breedCounter : Int)
  | shark (breedCounter : Int) (energy : Int)
  deriving DecidableEq, Repr

/-- References into the store: allocation order of the entity. -/
abbrev Ref := Nat

/-- The heap of entity structs; index = allocation order. -/
abbrev Store := List EntityVal

/-- Grid cells: `Cells[x][y]` is `none` (Go `nil`) or a reference. -/
abbrev Cells := List (List (Option Ref))

/-- Dereference a pointer (read the entity struct behind a reference). -/
def sget (s : Store) (r : Ref) : Option EntityVal := s.get? r

/-- Mutate the entity struct behind a reference in place. -/
def sset (s : Store) (r : Ref) (v : EntityVal) : Store := s.set r v

/-- Allocate a fresh entity struct (`&Fish{...}` / `&Shark{...}`):
returns the grown store and the fresh reference. -/
def alloc (s : Store) (v : EntityVal) : Store × Ref := (s ++ [v], s.length)

/-- Read `g.Cells[x][y]`; out-of-range indices give `none` (never hit by
the Go code, which always indexes with wrapped coordinates). -/
def getCell (c : Cells) (x y : Nat) : Option Ref :=
  ((c.get? x).bind fun row => row.get? y).join

/-- Write `g.Cells[x][y] = v`. -/
def setCell (c : Cells) (x y : Nat) (v : Option Ref) : Cells :=
  match c.get? x with
  | some row => c.set x (row.set y v)
  | none => c

/-- NewGrid (grid.go): a size × size grid of nil cells. -/
def emptyCells (n : Nat) : Cells := List.replicate n (List.replicate n none)

/-- The direction table of `findEmptyAdjacent` / `findNearestFish`:
North, South, West, East. -/
def dirs : List (Int × Int) := [(-1, 0), (1, 0), (0, -1), (0, 1)]

/-- Coordinate wrap `(x + d + g.Size) % g.Size` from movement.go. -/
def wrap (n : Nat) (x : Nat) (d : Int) : Nat := (((x : Int) + d + n) % n).toNat

/-- Randomized direction orders: per cell `(x, y)` and call slot, the
order in which that call scans the four neighbors. -/
abbrev RFun := Nat → Nat → Nat → List (Int × Int)

/-- findEmptyAdjacent (movement.go lines 146-160): scan the given
direction order for the first wrapped neighbor whose cell is nil;
`none` models the `(-1, -1)` failure result. -/
def findEmptyAdjacent (c : Cells) (n : Nat) (ds : List (Int × Int)) (x y : Nat) :
    Option (Nat × Nat) :=
  match ds with
  | [] => none
  | (dx, dy) :: rest =>
      let nx := wrap n x dx
      let ny := wrap n y dy
      if getCell c nx ny = none then some (nx, ny)
      else findEmptyAdjacent c n rest x y

/-- True when the cell holds a pointer whose dynamic type is `*Fish`. -/
def isFishCell (c : Cells) (s : Store) (x y : Nat) : Bool :=
  match getCell c x y with
  | some r =>
      match sget s r with
      | some (.fish _) => true
      | _ => false
  | none => false

/-- True when the cell holds a pointer whose dynamic type is `*Shark`. -/
def isSharkCell (c : Cells) (s : Store) (x y : Nat) : Bool :=
  match getCell c x y with
  | some r =>
      match sget s r with
      | some (.shark _ _) => true
      | _ => false
  | none => false

/-- findNearestFish (movement.go lines 169-183): scan the given direction
order for the first wrapped neighbor holding a `*Fish`. -/
def findNearestFish (c : Cells) (s : Store) (n : Nat) (ds : List (Int × Int)) (x y : Nat) :
    Option (Nat × Nat) :=
  match ds with
  | [] => none
  | (dx, dy) :: rest =>
      let nx := wrap n x dx
      let ny := wrap n y dy
      if isFishCell c s nx ny then some (nx, ny)
      else findNearestFish c s n rest x y

/-- The mutable state threaded through one chronon of the row-partition
step: the shared entity heap and the freshly allocated next grid. -/
structure St where
  store : Store
  next : Cells
  deriving DecidableEq, Repr

/-- processFish (src/main/movement.go lines 89-101); the identical logic
is inlined in moveFish (src/wat-or/main/movement.go lines 114-135).
The fish moves to the first empty adjacent cell (else stays), its breed
counter is incremented in place, and on reaching `fishBreed` a new fish
is left at the original cell and the counter resets. -/
def processFish (curr : Cells) (n : Nat) (fishBreed : Int) (rng : RFun)
    (r : Ref) (x y : Nat) (st : St) : St :=
  let st1 : St :=
    match findEmptyAdjacent curr n (rng x y 0) x y with
    | some (nx, ny) => { st with next := setCell st.next nx ny (some r) }
    | none => { st with next := setCell st.next x y (some r) }
  match sget st1.store r with
  | some (.fish bc) =>
      let bc' := bc + 1
      if fishBreed ≤ bc' then
        let p := alloc (sset st1.store r (.fish 0)) (.fish 0)
        { store := p.1, next := setCell st1.next x y (some p.2) }
      else { st1 with store := sset st1.store r (.fish bc') }
  | _ => st1

/-- processShark (src/main/movement.go lines 113-137).  Energy drops
first; a shark at energy ≤ 0 is dropped with no further rule.  Otherwise
it moves onto an adjacent fish (energy resets to `starveEnergy`), else to
an empty adjacent cell, else stays; then the breed counter is
incremented, and on reaching `sharkBreed` a new shark with energy
`starveEnergy` is left at the original cell and the counter resets. -/
def processShark (curr : Cells) (n : Nat) (sharkBreed starveEnergy : Int) (rng : RFun)
    (r : Ref) (x y : Nat) (st : St) : St :=
  match sget st.store r with
  | some (.shark bc en) =>
      let en' := en - 1
      let store1 := sset st.store r (.shark bc en')
      if en' ≤ 0 then { st with store := store1 }
      else
        let afterMove : St :=
          match findNearestFish curr store1 n (rng x y 0) x y with
          | some (nx, ny) =>
              { store := sset store1 r (.shark bc starveEnergy),
                next := setCell st.next nx ny (some r) }
          | none =>
              match findEmptyAdjacent curr n (rng x y 1) x y with
              | some (nx, ny) =>
                  { store := store1, next := setCell st.next nx ny (some r) }
              | none =>
                  { store := store1, next := setCell st.next x y (some r) }
        match sget afterMove.store r with
        | some (.shark bc2 en2) =>
            let bc' := bc2 + 1
            if sharkBreed ≤ bc' then
              let p := alloc (sset afterMove.store r (.shark 0 en2)) (.shark 0 starveEnergy)
              { store := p.1, next := setCell afterMove.next x y (some p.2) }
            else { afterMove with store := sset afterMove.store r (.shark bc' en2) }
        | _ => afterMove
  | _ => st

/-- The body of processSection's double loop (src/main/movement.go lines
68-78): dispatch on the dynamic type of the current cell. -/
def processCell (curr : Cells) (n : Nat) (fishBreed sharkBreed starveEnergy : Int)
    (rng : RFun) (st : St) (p : Nat × Nat) : St :=
  match getCell curr p.1 p.2 with
  | some r =>
      match sget st.store r with
      | some (.fish _) => processFish curr n fishBreed rng r p.1 p.2 st
      | some (.shark _ _) => processShark curr n sharkBreed starveEnergy rng r p.1 p.2 st
      | none => st
  | none => st

/-- Row-major scan order of the rows `[startRow, endRow)`: the iteration
order of processSection's nested loops. -/
def sectionPairs (n startRow endRow : Nat) : List (Nat × Nat) :=
  ((List.range (endRow - startRow)).map (· + startRow)).flatMap
    fun x => (List.range n).map fun y => (x, y)

/-- processSection (src/main/movement.go lines 68-78). -/
def processSection (curr : Cells) (n : Nat) (fishBreed sharkBreed starveEnergy : Int)
    (rng : RFun) (startRow endRow : Nat) (st : St) : St :=
  (sectionPairs n startRow endRow).foldl
    (processCell curr n fishBreed sharkBreed starveEnergy rng) st

/-- Start row of worker `i`: `i * (g.Size / threads)`
(MoveEntitiesWithThreads, src/main/movement.go line 41). -/
def startRow (n threads i : Nat) : Nat := i * (n / threads)

/-- End row of worker `i`; the last worker absorbs the remainder
(src/main/movement.go lines 42-45). -/
def endRow (n threads i : Nat) : Nat :=
  if i = threads - 1 then n else startRow n threads i + n / threads

/-- MoveEntitiesWithThreads (src/main/movement.go lines 33-56), with the
workers' sections composed in worker order (the reference interleaving;
exact for `threads = 1`, where a single goroutine does all the work).
Returns the heap and the next grid that replaces `g.Cells` at the swap. -/
def MoveEntitiesWithThreads (curr : Cells) (store : Store) (n : Nat)
    (fishBreed sharkBreed starveEnergy : Int) (threads : Nat) (rng : RFun) : St :=
  (List.range threads).foldl
    (fun st i =>
      processSection curr n fishBreed sharkBreed starveEnergy rng
        (startRow n threads i) (endRow n threads i) st)
    { store := store, next := emptyCells n }

/-- moveFish (src/wat-or/main/movement.go lines 114-135): the fish pass
over the whole grid, writing directly into the next grid. -/
def moveFish (curr : Cells) (n : Nat) (fishBreed : Int) (rng : RFun) (st : St) : St :=
  (sectionPairs n 0 n).foldl
    (fun st p =>
      match getCell curr p.1 p.2 with
      | some r =>
          match sget st.store r with
          | some (.fish _) => processFish curr n fishBreed rng r p.1 p.2 st
          | _ => st
      | none => st)
    st

/-- A message on the move channel (src/wat-or/main/movement.go lines
54-57): target coordinates and the entity pointer being moved. -/
abbrev Move := Nat × Nat × Ref

/-- State of the shark pass of the message-passing strategy: the heap and
the moves emitted so far (the buffered channel, in emission order). -/
structure BufSt where
  store : Store
  buf : List Move
  deriving DecidableEq, Repr

/-- moveSharksConcurrent (src/wat-or/main/movement.go lines 67-106): the
same shark rules as processShark, but every next-grid write is emitted as
a `Move` on the channel instead of being applied directly. -/
def processSharkBuf (curr : Cells) (n : Nat) (sharkBreed starveEnergy : Int) (rng : RFun)
    (r : Ref) (x y : Nat) (st : BufSt) : BufSt :=
  match sget st.store r with
  | some (.shark bc en) =>
      let en' := en - 1
      let store1 := sset st.store r (.shark bc en')
      if en' ≤ 0 then { st with store := store1 }
      else
        let afterMove : BufSt :=
          match findNearestFish curr store1 n (rng x y 0) x y with
          | some (nx, ny) =>
              { store := sset store1 r (.shark bc starveEnergy),
                buf := st.buf ++ [(nx, ny, r)] }
          | none =>
              match findEmptyAdjacent curr n (rng x y 1) x y with
              | some (nx, ny) => { store := store1, buf := st.buf ++ [(nx, ny, r)] }
              | none => { store := store1, buf := st.buf ++ [(x, y, r)] }
        match sget afterMove.store r with
        | some (.shark bc2 en2) =>
            let bc' := bc2 + 1
            if sharkBreed ≤ bc' then
              let p := alloc (sset afterMove.store r (.shark 0 en2)) (.shark 0 starveEnergy)
              { store := p.1, buf := afterMove.buf ++ [(x, y, p.2)] }
            else { afterMove with store := sset afterMove.store r (.shark bc' en2) }
        | _ => afterMove
  | _ => st

/-- The full scan of moveSharksConcurrent over the grid. -/
def moveSharksConcurrent (curr : Cells) (n : Nat) (sharkBreed starveEnergy : Int)
    (rng : RFun) (st : BufSt) : BufSt :=
  (sectionPairs n 0 n).foldl
    (fun st p =>
      match getCell curr p.1 p.2 with
      | some r =>
          match sget st.store r with
          | some (.shark _ _) => processSharkBuf curr n sharkBreed starveEnergy rng r p.1 p.2 st
          | _ => st
      | none => st)
    st

/-- MoveEntitiesConcurrent (src/wat-or/main/movement.go lines 21-48):
fish pass into the next grid, shark pass emitting moves on the channel,
then the channel is drained in FIFO order into the next grid. -/
def MoveEntitiesConcurrent (curr : Cells) (store : Store) (n : Nat)
    (fishBreed sharkBreed starveEnergy : Int) (rng : RFun) : St :=
  let st1 := moveFish curr n fishBreed rng { store := store, next := emptyCells n }
  let bs := moveSharksConcurrent curr n sharkBreed starveEnergy rng
    { store := st1.store, buf := [] }
  { store := bs.store,
    next := bs.buf.foldl (fun c m => setCell c m.1 m.2.1 (some m.2.2)) st1.next }

/-- CountEntities (src/wat-or/main/grid.go lines 69-81): scan the grid
and tally `(numFish, numSharks)` by the dynamic type of each cell. -/
def CountEntities (n : Nat) (cells : Cells) (store : Store) : Nat × Nat :=
  (sectionPairs n 0 n).foldl
    (fun acc p =>
      (if isFishCell cells store p.1 p.2 then acc.1 + 1 else acc.1,
       if isSharkCell cells store p.1 p.2 then acc.2 + 1 else acc.2))
    (0, 0)

/-- Total entity count of a grid: fish plus sharks, as tallied by
CountEntities. -/
def totalCount (n : Nat) (cells : Cells) (store : Store) : Nat :=
  (CountEntities n cells store).1 + (CountEntities n cells store).2

/-- A cell holds a shark that starves during the chronon: its
`Energy--` makes the energy ≤ 0 (processShark's removal test). -/
def deathP (cells : Cells) (store : Store) (p : Nat × Nat) : Bool :=
  match getCell cells p.1 p.2 with
  | some r =>
      match sget store r with
      | some (.shark _ en) => decide (en - 1 ≤ 0)
      | _ => false
  | none => false

/-- A cell holds an entity that reproduces during the chronon: a fish
whose incremented counter reaches `fishBreed`, or a surviving shark
whose incremented counter reaches `sharkBreed`. -/
def reproP (cells : Cells) (store : Store) (fishBreed sharkBreed : Int)
    (p : Nat × Nat) : Bool :=
  match getCell cells p.1 p.2 with
  | some r =>
      match sget store r with
      | some (.fish bc) => decide (fishBreed ≤ bc + 1)
      | some (.shark bc en) => decide (¬ en - 1 ≤ 0) && decide (sharkBreed ≤ bc + 1)
      | none => false
  | none => false

/-- Number of sharks of the grid that starve during the chronon. -/
def numStarvationDeaths (n : Nat) (cells : Cells) (store : Store) : Nat :=
  (sectionPairs n 0 n).countP (deathP cells store)

/-- Number of entities of the grid that reproduce during the chronon. -/
def numReproductions (n : Nat) (cells : Cells) (store : Store)
    (fishBreed sharkBreed : Int) : Nat :=
  (sectionPairs n 0 n).countP (reproP cells store fishBreed sharkBreed)

/-- Kind of an entity value (`true` for fish, `false` for shark): the
dynamic type of the Go pointer, which no in-place mutation changes. -/
def ekind : EntityVal → Bool
  | .fish _ => true
  | .shark _ _ => false

/-- Checks that every entity of the first store is still present in the
second with the same dynamic type (the store only grows, by allocation,
and mutation never changes a pointer's type). -/
def kindsPreservedB (s s' : Store) : Bool :=
  decide (s.length ≤ s'.length) &&
  (List.range s.length).all fun r =>
    match sget s r, sget s' r with
    | some v, some v' => ekind v == ekind v'
    | _, _ => false

/-- The gate main (src/unnamed/part_004 lines 46-61) applies before the
simulation loop: run with the seven parsed command-line values when
exactly seven arguments are given, run with the defaults when none are
given, print a usage line otherwise.  `args` are the user arguments
(`os.Args` without the program name); no parameter value is inspected. -/
def mainAccepts (args : List Int) : Bool :=
  args.length == 7 || args.length == 0

/-- Modelled from the spec: the configuration validation the claim
describes (spec §7) — positive grid size, breed ages and starve energy,
and initial population within grid capacity.  No such check exists in
the source; this definition follows the spec's words so the claim can be
stated against the code's actual gate `mainAccepts`. -/
def specValidConfig (numShark numFish fishBreed sharkBreed starveEnergy gridSize : Int) :
    Bool :=
  decide (0 < gridSize) && decide (0 < fishBreed) && decide (0 < sharkBreed) &&
  decide (0 < starveEnergy) && decide (numFish + numShark ≤ gridSize * gridSize)

/-- addEntity (src/wat-or/main/grid.go lines 55-63): draw random cells
until an empty one is found and place the entity there.  The stream `rs`
carries the `rand.Intn(g.Size)` draws; `none` models exhausting the
stream (the Go loop would keep drawing forever on a full grid). -/
def addEntity (cells : Cells) (store : Store) (e : EntityVal) :
    List (Nat × Nat) → Option (Cells × Store × List (Nat × Nat))
  | [] => none
  | (x, y) :: rest =>
      if getCell cells x y = none then
        let p := alloc store e
        some (setCell cells x y (some p.2), p.1, rest)
      else addEntity cells store e rest

/-- Place `k` copies of an entity value by repeated addEntity calls
(the loops of Initialise). -/
def addEntities (e : EntityVal) : Nat → Cells → Store → List (Nat × Nat) →
    Option (Cells × Store × List (Nat × Nat))
  | 0, cells, store, rs => some (cells, store, rs)
  | k + 1, cells, store, rs =>
      match addEntity cells store e rs with
      | some (c', s', rs') => addEntities e k c' s' rs'
      | none => none

/-- Initialise (src/wat-or/main/grid.go lines 42-49) on the fresh grid
main builds with NewGrid: `numFish` times `&Fish{}` then `numSharks`
times `&Shark{Energy: 4}`. -/
def Initialise (n numFish numSharks : Nat) (rs : List (Nat × Nat)) :
    Option (Cells × Store) :=
  match addEntities (.fish 0) numFish (emptyCells n) [] rs with
  | some (c1, s1, rs1) =>
      match addEntities (.shark 0 4) numSharks c1 s1 rs1 with
      | some (c2, s2, _) => some (c2, s2)
      | none => none
  | none => none

/-- A step transition of the whole grid never writes into the current
grid's cell array — in this embedding `curr` is a read-only input — and
the claim takes this further: the entity values reachable from the
current grid would be unchanged by the dispatch phase.  The code mutates
them in place: on a 1×1 grid holding a single fish with breed counter 0
(and `fishBreed = 100`, so no reproduction), the fish entity referenced
by the current grid has breed counter 1 after the dispatch, not 0. -/
theorem C1_counterexample :
    getCell [[some 0]] 0 0 = some 0 ∧
    sget [EntityVal.fish 0] 0 = some (.fish 0) ∧
    sget (MoveEntitiesWithThreads [[some 0]] [EntityVal.fish 0] 1 100 100 5 1
            (fun _ _ _ => dirs)).store 0 = some (.fish 1) := by
  decide

/-- In the 3×3 scenario of the claim — shark at (0,0) with energy 5,
fish at (0,1), `starveEnergy = 5`, one worker, the unshuffled direction
order — the shark does occupy (0,1) with energy 5 after the chronon, but
the fish count does not decrease: it is 1 before and still 1 after,
because the fish is processed after the shark yet reads the current
grid, finds an empty neighbor and escapes. -/
theorem C2_counterexample :
    (CountEntities 3 [[some 0, some 1, none], [none, none, none], [none, none, none]]
        [EntityVal.shark 0 5, EntityVal.fish 0]).1 = 1 ∧
    (getCell (MoveEntitiesWithThreads
        [[some 0, some 1, none], [none, none, none], [none, none, none]]
        [EntityVal.shark 0 5, EntityVal.fish 0] 3 100 100 5 1
        (fun _ _ _ => dirs)).next 0 1 = some 0) ∧
    (sget (MoveEntitiesWithThreads
        [[some 0, some 1, none], [none, none, none], [none, none, none]]
        [EntityVal.shark 0 5, EntityVal.fish 0] 3 100 100 5 1
        (fun _ _ _ => dirs)).store 0 = some (.shark 1 5)) ∧
    ((CountEntities 3
        (MoveEntitiesWithThreads
          [[some 0, some 1, none], [none, none, none], [none, none, none]]
          [EntityVal.shark 0 5, EntityVal.fish 0] 3 100 100 5 1
          (fun _ _ _ => dirs)).next
        (MoveEntitiesWithThreads
          [[some 0, some 1, none], [none, none, none], [none, none, none]]
          [EntityVal.shark 0 5, EntityVal.fish 0] 3 100 100 5 1
          (fun _ _ _ => dirs)).store).1 = 1) := by
  decide

/-- A fish that breeds while unable to move does not leave two fish: on
a 1×1 grid with one fish and `fishBreed = 1`, the fish stays, breeds,
and the offspring write at the original cell overwrites the parent's
stay-write — the next grid holds exactly one fish (the offspring,
counter 0, reference 1), and the parent (reference 0) is gone. -/
theorem C3_counterexample :
    CountEntities 1
        (MoveEntitiesWithThreads [[some 0]] [EntityVal.fish 0] 1 1 100 5 1
          (fun _ _ _ => dirs)).next
        (MoveEntitiesWithThreads [[some 0]] [EntityVal.fish 0] 1 1 100 5 1
          (fun _ _ _ => dirs)).store = (1, 0) ∧
    getCell (MoveEntitiesWithThreads [[some 0]] [EntityVal.fish 0] 1 1 100 5 1
          (fun _ _ _ => dirs)).next 0 0 = some 1 := by
  decide

/-- Even with a single worker the step can lose an entity: on a 2×2 grid
two fish (at (0,0) and (1,1)) both pick the empty cell (0,1) — both
shuffles are permutations of the direction table — and the second write
overwrites the first.  With no reproduction and no starvation the total
count drops from 2 to 1, violating the claimed conservation law. -/
theorem C4_counterexample :
    totalCount 2
        (MoveEntitiesWithThreads [[some 0, none], [none, some 1]]
          [EntityVal.fish 0, EntityVal.fish 0] 2 100 100 5 1
          (fun x _ _ => if x = 0 then [(0, 1), (-1, 0), (1, 0), (0, -1)] else dirs)).next
        (MoveEntitiesWithThreads [[some 0, none], [none, some 1]]
          [EntityVal.fish 0, EntityVal.fish 0] 2 100 100 5 1
          (fun x _ _ => if x = 0 then [(0, 1), (-1, 0), (1, 0), (0, -1)] else dirs)).store
      = 1 ∧
    totalCount 2 [[some 0, none], [none, some 1]] [EntityVal.fish 0, EntityVal.fish 0] = 2 ∧
    numReproductions 2 [[some 0, none], [none, some 1]]
        [EntityVal.fish 0, EntityVal.fish 0] 100 100 = 0 ∧
    numStarvationDeaths 2 [[some 0, none], [none, some 1]]
        [EntityVal.fish 0, EntityVal.fish 0] = 0 := by
  decide

/-- The two dispatch strategies are not externally equivalent: on a 2×2
grid with a shark at (0,0) (energy 5) and fish on the three other cells,
with the same direction orders, the row-partition step ends with 3 fish
and no shark (the fish at (1,0) stays put and its write overwrites the
shark that had just eaten it), while the message-passing step ends with
2 fish and 1 shark (the buffered shark write is applied after all fish
writes). -/
theorem C5_counterexample :
    CountEntities 2
        (MoveEntitiesWithThreads [[some 0, some 1], [some 2, some 3]]
          [EntityVal.shark 0 5, EntityVal.fish 0, EntityVal.fish 0, EntityVal.fish 0]
          2 100 100 5 1 (fun _ _ _ => dirs)).next
        (MoveEntitiesWithThreads [[some 0, some 1], [some 2, some 3]]
          [EntityVal.shark 0 5, EntityVal.fish 0, EntityVal.fish 0, EntityVal.fish 0]
          2 100 100 5 1 (fun _ _ _ => dirs)).store = (3, 0) ∧
    CountEntities 2
        (MoveEntitiesConcurrent [[some 0, some 1], [some 2, some 3]]
          [EntityVal.shark 0 5, EntityVal.fish 0, EntityVal.fish 0, EntityVal.fish 0]
          2 100 100 5 (fun _ _ _ => dirs)).next
        (MoveEntitiesConcurrent [[some 0, some 1], [some 2, some 3]]
          [EntityVal.shark 0 5, EntityVal.fish 0, EntityVal.fish 0, EntityVal.fish 0]
          2 100 100 5 (fun _ _ _ => dirs)).store = (2, 1) := by
  decide

/-- The code rejects no configuration values: a run whose grid size is 0
(invalid per the claim) presents seven arguments and is accepted by the
only gate main has, the argument-count check, even though the spec-side
validator rejects it. -/
theorem C8_counterexample :
    mainAccepts [0, 0, 3, 3, 4, 0, 10] = true ∧
    specValidConfig 0 0 3 3 4 0 = false := by
  decide

/-- Acceptance of a run is blind to every parameter value: main's gate
depends only on how many arguments were passed, so no invalid
configuration is ever detected before the first chronon. -/
theorem C8_amended (args args' : List Int) (h : args.length = args'.length) :
    mainAccepts args = mainAccepts args' := by
  simp [mainAccepts, h]

/-- Witness: the value blindness at a concrete pair of argument lists of
equal length, one of them the invalid configuration of the
counterexample. -/
theorem C8_witness :
    mainAccepts [0, 0, 3, 3, 4, 0, 10] = mainAccepts [100, 100, 3, 3, 4, 100, 10] :=
  C8_amended [0, 0, 3, 3, 4, 0, 10] [100, 100, 3, 3, 4, 100, 10] (by decide)

/-- Wrapped coordinates stay inside the grid for any offset. -/
theorem wrap_lt (n x : Nat) (d : Int) (h : 1 ≤ n) : wrap n x d < n := by
  have hn0 : (n : Int) ≠ 0 := by exact_mod_cast Nat.one_le_iff_ne_zero.mp h
  have h1 := Int.emod_nonneg ((x : Int) + d + n) hn0
  have h2 := Int.emod_lt_of_pos ((x : Int) + d + n)
    (show (0 : Int) < n by exact_mod_cast h)
  unfold wrap
  omega

/-- Wrapping is invariant under adding one grid side to a coordinate. -/
theorem wrap_add_self (n x : Nat) (d : Int) : wrap n (x + n) d = wrap n x d := by
  unfold wrap
  have h : ((x + n : Nat) : Int) + d + n = ((x : Int) + d + n) + 1 * n := by
    push_cast; ring
  rw [h, Int.add_mul_emod_self]

/-- A successful empty-neighbor scan returns in-bounds coordinates. -/
theorem findEmptyAdjacent_lt (c : Cells) (n : Nat) (ds : List (Int × Int)) (x y : Nat)
    (p : Nat × Nat) (hn : 1 ≤ n) (h : findEmptyAdjacent c n ds x y = some p) :
    p.1 < n ∧ p.2 < n := by
  induction ds with
  | nil => simp [findEmptyAdjacent] at h
  | cons d rest ih =>
      obtain ⟨dx, dy⟩ := d
      simp only [findEmptyAdjacent] at h
      split at h
      · cases h
        exact ⟨wrap_lt n x dx hn, wrap_lt n y dy hn⟩
      · exact ih h

/-- A successful fish scan returns in-bounds coordinates. -/
theorem findNearestFish_lt (c : Cells) (s : Store) (n : Nat) (ds : List (Int × Int))
    (x y : Nat) (p : Nat × Nat) (hn : 1 ≤ n) (h : findNearestFish c s n ds x y = some p) :
    p.1 < n ∧ p.2 < n := by
  induction ds with
  | nil => simp [findNearestFish] at h
  | cons d rest ih =>
      obtain ⟨dx, dy⟩ := d
      simp only [findNearestFish] at h
      split at h
      · cases h
        exact ⟨wrap_lt n x dx hn, wrap_lt n y dy hn⟩
      · exact ih h

/-- Neighbor lookup never indexes out of bounds and is toroidal: every
wrapped coordinate `(x + dx + N) mod N` computed by findEmptyAdjacent
and findNearestFish lies in `[0, N)` for `N ≥ 1` (so the lookup always
succeeds), any coordinates the two scans return are in bounds, and
wrapping agrees at `x` and `x + N` (same for `y`), i.e. coordinate
access wraps around the torus. -/
theorem C9_wrap_safe :
    (∀ (n x : Nat) (d : Int), 1 ≤ n → wrap n x d < n) ∧
    (∀ (c : Cells) (n : Nat) (ds : List (Int × Int)) (x y : Nat) (p : Nat × Nat),
      1 ≤ n → findEmptyAdjacent c n ds x y = some p → p.1 < n ∧ p.2 < n) ∧
    (∀ (c : Cells) (s : Store) (n : Nat) (ds : List (Int × Int)) (x y : Nat) (p : Nat × Nat),
      1 ≤ n → findNearestFish c s n ds x y = some p → p.1 < n ∧ p.2 < n) ∧
    (∀ (n x : Nat) (d : Int), wrap n (x + n) d = wrap n x d) :=
  ⟨fun n x d h => wrap_lt n x d h,
   fun c n ds x y p hn h => findEmptyAdjacent_lt c n ds x y p hn h,
   fun c s n ds x y p hn h => findNearestFish_lt c s n ds x y p hn h,
   fun n x d => wrap_add_self n x d⟩

/-- Witness: wrapping at a concrete cell of a 3×3 grid is in bounds and
toroidal. -/
theorem C9_witness : wrap 3 2 (-1) < 3 ∧ wrap 3 (2 + 3) (-1) = wrap 3 2 (-1) :=
  ⟨C9_wrap_safe.1 3 2 (-1) (by decide), C9_wrap_safe.2.2.2 3 2 (-1)⟩

/-- A shark whose decremented energy is non-positive is dropped with no
further rule (no move, no feeding, no offspring — the next grid is left
untouched, only its own energy decrement is recorded in the heap); and
in the 3×3 scenario with a single shark of energy 1 at (1,1) and no
fish, one chronon later the grid holds zero sharks — for every shark
breed age, starve energy and randomized direction choice. -/
theorem C6_starvation :
    (∀ (curr : Cells) (n : Nat) (sharkBreed starveEnergy : Int) (rng : RFun)
        (r : Ref) (x y : Nat) (st : St) (bc en : Int),
      sget st.store r = some (.shark bc en) → en ≤ 1 →
      (processShark curr n sharkBreed starveEnergy rng r x y st).next = st.next ∧
      (processShark curr n sharkBreed starveEnergy rng r x y st).store
        = sset st.store r (.shark bc (en - 1))) ∧
    (∀ (sharkBreed starveEnergy : Int) (rng : RFun),
      CountEntities 3
        (MoveEntitiesWithThreads
          [[none, none, none], [none, some 0, none], [none, none, none]]
          [EntityVal.shark 0 1] 3 100 sharkBreed starveEnergy 1 rng).next
        (MoveEntitiesWithThreads
          [[none, none, none], [none, some 0, none], [none, none, none]]
          [EntityVal.shark 0 1] 3 100 sharkBreed starveEnergy 1 rng).store = (0, 0)) := by
  constructor
  · intro curr n sharkBreed starveEnergy rng r x y st bc en h hle
    simp only [processShark, h]
    rw [if_pos (show en - 1 ≤ 0 by omega)]
    exact ⟨rfl, rfl⟩
  · intro sharkBreed starveEnergy rng
    rfl

/-- Witness: the starvation rule applied to a concrete shark of energy 1
sitting at (1,1) of a 3×3 grid with a large breed age. -/
theorem C6_witness :
    (processShark [[none, none, none], [none, some 0, none], [none, none, none]]
        3 100 4 (fun _ _ _ => dirs) 0 1 1
        { store := [EntityVal.shark 0 1], next := emptyCells 3 }).next = emptyCells 3 ∧
    (processShark [[none, none, none], [none, some 0, none], [none, none, none]]
        3 100 4 (fun _ _ _ => dirs) 0 1 1
        { store := [EntityVal.shark 0 1], next := emptyCells 3 }).store
      = sset [EntityVal.shark 0 1] 0 (.shark 0 (1 - 1)) :=
  C6_starvation.1 [[none, none, none], [none, some 0, none], [none, none, none]]
    3 100 4 (fun _ _ _ => dirs) 0 1 1
    { store := [EntityVal.shark 0 1], next := emptyCells 3 } 0 1 (by decide) (by decide)

/-- An entity placed by addEntity is either one of the previously stored
entities or the entity value being placed. -/
theorem addEntity_store_mem (e : EntityVal) (rs : List (Nat × Nat)) :
    ∀ (cells : Cells) (store : Store) (c' : Cells) (s' : Store) (rs' : List (Nat × Nat)),
      addEntity cells store e rs = some (c', s', rs') →
      ∀ v ∈ s', v ∈ store ∨ v = e := by
  induction rs with
  | nil => intro cells store c' s' rs' h; simp [addEntity] at h
  | cons q rest ih =>
      intro cells store c' s' rs' h v hv
      obtain ⟨x, y⟩ := q
      simp only [addEntity] at h
      split at h
      · cases h
        rcases List.mem_append.mp hv with h1 | h1
        · exact Or.inl h1
        · simp at h1; exact Or.inr h1
      · exact ih cells store c' s' rs' h v hv

/-- Entities placed by the repeat loop of Initialise obey the same
bound. -/
theorem addEntities_store_mem (e : EntityVal) :
    ∀ (k : Nat) (cells : Cells) (store : Store) (rs : List (Nat × Nat))
      (c' : Cells) (s' : Store) (rs' : List (Nat × Nat)),
      addEntities e k cells store rs = some (c', s', rs') →
      ∀ v ∈ s', v ∈ store ∨ v = e := by
  intro k
  induction k with
  | zero =>
      intro cells store rs c' s' rs' h v hv
      simp only [addEntities] at h
      cases h
      exact Or.inl hv
  | succ k ih =>
      intro cells store rs c' s' rs' h v hv
      simp only [addEntities] at h
      split at h
      · next c1 s1 rs1 heq =>
          rcases ih c1 s1 rs1 c' s' rs' h v hv with h1 | h1
          · exact addEntity_store_mem e rs cells store c1 s1 rs1 heq v h1
          · exact Or.inr h1
      · exact absurd h (by simp)

/-- Every entity a successful Initialise places is a fish with breed
counter 0 or a shark with breed counter 0 and energy exactly 4 — the
literal `&Fish{}` and `&Shark{Energy: 4}` of the source.  Initialise
takes no starve-energy parameter, so the initial shark energy is 4
regardless of the configured starveEnergy. -/
theorem C10_initialise (n numFish numSharks : Nat) (rs : List (Nat × Nat))
    (p : Cells × Store) (h : Initialise n numFish numSharks rs = some p) :
    p.2.all (fun v => v == EntityVal.fish 0 || v == EntityVal.shark 0 4) = true := by
  rw [List.all_eq_true]
  intro v hv
  simp only [Initialise] at h
  split at h
  · next c1 s1 rs1 hfish =>
      split at h
      · next c2 s2 rs2 hshark =>
          cases h
          rcases addEntities_store_mem (.shark 0 4) numSharks c1 s1 rs1 c2 s2 rs2
              hshark v hv with h1 | h1
          · rcases addEntities_store_mem (.fish 0) numFish (emptyCells n) [] rs
                c1 s1 rs1 hfish v h1 with h2 | h2
            · simp at h2
            · simp [h2]
          · simp [h1]
      · exact absurd h (by simp)
  · exact absurd h (by simp)

/-- Witness: a 2×2 grid initialised with one fish and one shark from a
concrete placement stream. -/
theorem C10_witness :
    ([EntityVal.fish 0, EntityVal.shark 0 4].all
      (fun v => v == EntityVal.fish 0 || v == EntityVal.shark 0 4)) = true :=
  C10_initialise 2 1 1 [(0, 0), (1, 1)]
    ([[some 0, none], [none, some 1]], [EntityVal.fish 0, EntityVal.shark 0 4])
    (by decide)

/-- Number of workers whose row range `[startRow, endRow)` contains the
row `r`, under the division of MoveEntitiesWithThreads. -/
def coveredCount (n threads r : Nat) : Nat :=
  ((Finset.range threads).filter fun i =>
    startRow n threads i ≤ r ∧ r < endRow n threads i).card

/-- Every row of the grid lies in exactly one worker's row range: the
ranges `[startRow i, endRow i)` are contiguous and non-overlapping, the
last worker absorbing the remainder, so together they cover each row
index in `[0, N)` exactly once. -/
theorem C7_partition (n threads r : Nat) (ht : 1 ≤ threads) (hr : r < n) :
    coveredCount n threads r = 1 := by
  classical
  have hqd : n / threads = n / threads := rfl
  set q := n / threads with hq
  rw [coveredCount, Finset.card_eq_one]
  by_cases hq0 : q = 0
  · refine ⟨threads - 1, ?_⟩
    rw [Finset.eq_singleton_iff_unique_mem]
    constructor
    · rw [Finset.mem_filter, Finset.mem_range]
      refine ⟨by omega, ?_, ?_⟩
      · show startRow n threads (threads - 1) ≤ r
        unfold startRow
        rw [← hq, hq0]
        omega
      · show r < endRow n threads (threads - 1)
        unfold endRow
        rw [if_pos rfl]
        exact hr
    · intro j hj
      rw [Finset.mem_filter, Finset.mem_range] at hj
      obtain ⟨hjt, hj1, hj2⟩ := hj
      by_contra hne
      have hjlt : j ≠ threads - 1 := hne
      unfold endRow at hj2
      rw [if_neg hjlt] at hj2
      unfold startRow at hj2
      rw [← hq, hq0] at hj2
      omega
  · have hqpos : 0 < q := Nat.pos_of_ne_zero hq0
    have hlow : r / q * q ≤ r := Nat.div_mul_le_self r q
    have hhigh : r < r / q * q + q := by
      have h1 := Nat.div_add_mod r q
      have h2 : r % q < q := Nat.mod_lt _ hqpos
      have h3 : r / q * q = q * (r / q) := Nat.mul_comm _ _
      rw [h3]
      generalize hA : q * (r / q) = A at h1 ⊢
      omega
    by_cases hlt : r / q < threads - 1
    · refine ⟨r / q, ?_⟩
      rw [Finset.eq_singleton_iff_unique_mem]
      constructor
      · rw [Finset.mem_filter, Finset.mem_range]
        refine ⟨by omega, ?_, ?_⟩
        · show startRow n threads (r / q) ≤ r
          unfold startRow
          rw [← hq]
          exact hlow
        · show r < endRow n threads (r / q)
          unfold endRow
          rw [if_neg (by omega)]
          unfold startRow
          rw [← hq]
          exact hhigh
      · intro j hj
        rw [Finset.mem_filter, Finset.mem_range] at hj
        obtain ⟨hjt, hj1, hj2⟩ := hj
        unfold startRow at hj1
        rw [← hq] at hj1
        by_cases hje : j = threads - 1
        · exfalso
          have : threads - 1 ≤ r / q :=
            (Nat.le_div_iff_mul_le hqpos).mpr (by rw [← hje]; exact hj1)
          omega
        · unfold endRow at hj2
          rw [if_neg hje] at hj2
          unfold startRow at hj2
          rw [← hq] at hj2
          have hle : j ≤ r / q := (Nat.le_div_iff_mul_le hqpos).mpr hj1
          have hge : r / q ≤ j := by
            have : r / q < j + 1 :=
              (Nat.div_lt_iff_lt_mul hqpos).mpr (by
                have : (j + 1) * q = j * q + q := by ring
                omega)
            omega
          omega
    · refine ⟨threads - 1, ?_⟩
      rw [Finset.eq_singleton_iff_unique_mem]
      constructor
      · rw [Finset.mem_filter, Finset.mem_range]
        refine ⟨by omega, ?_, ?_⟩
        · show startRow n threads (threads - 1) ≤ r
          unfold startRow
          rw [← hq]
          calc (threads - 1) * q ≤ r / q * q := Nat.mul_le_mul_right q (by omega)
          _ ≤ r := hlow
        · show r < endRow n threads (threads - 1)
          unfold endRow
          rw [if_pos rfl]
          exact hr
      · intro j hj
        rw [Finset.mem_filter, Finset.mem_range] at hj
        obtain ⟨hjt, hj1, hj2⟩ := hj
        by_contra hne
        unfold endRow at hj2
        rw [if_neg hne] at hj2
        unfold startRow at hj1 hj2
        rw [← hq] at hj1 hj2
        have hle : j ≤ r / q := (Nat.le_div_iff_mul_le hqpos).mpr hj1
        have hgt : r / q < j + 1 :=
          (Nat.div_lt_iff_lt_mul hqpos).mpr (by
            have : (j + 1) * q = j * q + q := by ring
            omega)
        omega

/-- Witness: row 2 of a 3-row grid split over 2 workers lies in exactly
one worker's range. -/
theorem C7_witness : coveredCount 3 2 2 = 1 :=
  C7_partition 3 2 2 (by decide) (by decide)

/-- Reading a mutated reference gives the written value. -/
theorem sget_sset_self (s : Store) (r : Ref) (v : EntityVal) (h : r < s.length) :
    sget (sset s r v) r = some v := by
  simp [sget, sset, List.getElem?_set_self', h]

/-- Mutating one reference leaves every other reference unchanged. -/
theorem sget_sset_ne (s : Store) (r r' : Ref) (v : EntityVal) (h : r ≠ r') :
    sget (sset s r v) r' = sget s r' := by
  simp [sget, sset, List.getElem?_set_ne h]

/-- Allocation does not disturb existing references. -/
theorem sget_append_lt (s t : Store) (r : Ref) (h : r < s.length) :
    sget (s ++ t) r = sget s r := by
  simp [sget, List.getElem?_append_left h]

/-- A readable reference is inside the store. -/
theorem lt_of_sget_eq_some (s : Store) (r : Ref) (v : EntityVal)
    (h : sget s r = some v) : r < s.length :=
  (List.get?_eq_some.mp h).1

/-- Mutation preserves the store's length. -/
theorem length_sset (s : Store) (r : Ref) (v : EntityVal) :
    (sset s r v).length = s.length := by
  simp [sset]

/-- The second store extends the first: it is at least as long and every
existing reference still resolves, to an entity of the same dynamic
type. -/
def KindExt (s s' : Store) : Prop :=
  s.length ≤ s'.length ∧
  ∀ r v, sget s r = some v → ∃ v', sget s' r = some v' ∧ ekind v' = ekind v

theorem KindExt_refl (s : Store) : KindExt s s :=
  ⟨le_refl _, fun _ v h => ⟨v, h, rfl⟩⟩

theorem KindExt_trans {s1 s2 s3 : Store} (h1 : KindExt s1 s2) (h2 : KindExt s2 s3) :
    KindExt s1 s3 := by
  refine ⟨le_trans h1.1 h2.1, fun r v h => ?_⟩
  obtain ⟨v', hv', hk'⟩ := h1.2 r v h
  obtain ⟨v'', hv'', hk''⟩ := h2.2 r v' hv'
  exact ⟨v'', hv'', by rw [hk'', hk']⟩

/-- Overwriting a reference with a value of the same kind is a kind
extension. -/
theorem KindExt_sset (s : Store) (r : Ref) (v w : EntityVal)
    (h : sget s r = some w) (hk : ekind v = ekind w) : KindExt s (sset s r v) := by
  have hr : r < s.length := lt_of_sget_eq_some s r w h
  refine ⟨by rw [length_sset], fun r' v' h' => ?_⟩
  by_cases he : r = r'
  · subst he
    rw [h] at h'
    cases h'
    exact ⟨v, sget_sset_self s r v hr, hk⟩
  · exact ⟨v', by rw [sget_sset_ne s r r' v he]; exact h', rfl⟩

/-- Allocation is a kind extension. -/
theorem KindExt_alloc (s : Store) (v : EntityVal) : KindExt s (s ++ [v]) :=
  ⟨by simp, fun r w h =>
    ⟨w, by rw [sget_append_lt s [v] r (lt_of_sget_eq_some s r w h)]; exact h, rfl⟩⟩

/-- Processing one fish only mutates counters and allocates: kinds of
existing entities survive. -/
theorem processFish_kindExt (curr : Cells) (n : Nat) (fishBreed : Int) (rng : RFun)
    (r : Ref) (x y : Nat) (st : St) :
    KindExt st.store (processFish curr n fishBreed rng r x y st).store := by
  unfold processFish
  split <;>
  · dsimp only
    split
    · rename_i bc heq
      have hsg : sget st.store r = some (.fish bc) := heq
      split
      · exact KindExt_trans (KindExt_sset _ r (.fish 0) (.fish bc) hsg rfl)
          (KindExt_alloc _ (.fish 0))
      · exact KindExt_sset _ r (.fish (bc + 1)) (.fish bc) hsg rfl
    · exact KindExt_refl _

/-- Processing one shark only mutates counters/energy and allocates:
kinds of existing entities survive. -/
theorem processShark_kindExt (curr : Cells) (n : Nat) (sharkBreed starveEnergy : Int)
    (rng : RFun) (r : Ref) (x y : Nat) (st : St) :
    KindExt st.store (processShark curr n sharkBreed starveEnergy rng r x y st).store := by
  unfold processShark
  split
  · rename_i bc en heq
    have hsg : sget st.store r = some (.shark bc en) := heq
    have hr : r < st.store.length := lt_of_sget_eq_some _ _ _ hsg
    have h1 : KindExt st.store (sset st.store r (.shark bc (en - 1))) :=
      KindExt_sset _ r _ _ hsg rfl
    have hr1 : r < (sset st.store r (.shark bc (en - 1))).length := by
      rw [length_sset]; exact hr
    have hsg1 : sget (sset st.store r (.shark bc (en - 1))) r = some (.shark bc (en - 1)) :=
      sget_sset_self _ _ _ hr
    dsimp only
    split
    · exact h1
    · rcases hff : findNearestFish curr (sset st.store r (.shark bc (en - 1))) n
        (rng x y 0) x y with _ | ⟨nx, ny⟩
      · rcases hfe : findEmptyAdjacent curr n (rng x y 1) x y with _ | ⟨mx, my⟩ <;>
        · dsimp only
          rw [hsg1]
          dsimp only
          split
          · exact KindExt_trans h1 (KindExt_trans
              (KindExt_sset _ r (.shark 0 (en - 1)) (.shark bc (en - 1)) hsg1 rfl)
              (KindExt_alloc _ (.shark 0 starveEnergy)))
          · exact KindExt_trans h1
              (KindExt_sset _ r (.shark (bc + 1) (en - 1)) (.shark bc (en - 1)) hsg1 rfl)
      · dsimp only
        have hsg2 : sget (sset (sset st.store r (.shark bc (en - 1))) r
            (.shark bc starveEnergy)) r = some (.shark bc starveEnergy) :=
          sget_sset_self _ _ _ hr1
        have h2 : KindExt st.store (sset (sset st.store r (.shark bc (en - 1))) r
            (.shark bc starveEnergy)) :=
          KindExt_trans h1 (KindExt_sset _ r _ _ hsg1 rfl)
        rw [hsg2]
        dsimp only
        split
        · exact KindExt_trans h2 (KindExt_trans
            (KindExt_sset _ r (.shark 0 starveEnergy) (.shark bc starveEnergy) hsg2 rfl)
            (KindExt_alloc _ (.shark 0 starveEnergy)))
        · exact KindExt_trans h2
            (KindExt_sset _ r (.shark (bc + 1) starveEnergy) (.shark bc starveEnergy) hsg2 rfl)
  · exact KindExt_refl _

/-- Dispatching one cell preserves kinds of existing entities. -/
theorem processCell_kindExt (curr : Cells) (n : Nat) (fb sb se : Int) (rng : RFun)
    (st : St) (p : Nat × Nat) :
    KindExt st.store (processCell curr n fb sb se rng st p).store := by
  unfold processCell
  split
  · split
    · exact processFish_kindExt curr n fb rng _ p.1 p.2 st
    · exact processShark_kindExt curr n sb se rng _ p.1 p.2 st
    · exact KindExt_refl _
  · exact KindExt_refl _

/-- Folding a kind-preserving update over any list preserves kinds. -/
theorem foldl_kindExt {α : Type} (f : St → α → St)
    (hf : ∀ st a, KindExt st.store (f st a).store) :
    ∀ (l : List α) (st : St), KindExt st.store ((l.foldl f st).store) := by
  intro l
  induction l with
  | nil => intro st; exact KindExt_refl _
  | cons a t ih =>
      intro st
      exact KindExt_trans (hf st a) (ih (f st a))

/-- A kind extension passes the boolean check. -/
theorem kindsPreservedB_of_kindExt (s s' : Store) (h : KindExt s s') :
    kindsPreservedB s s' = true := by
  unfold kindsPreservedB
  rw [Bool.and_eq_true, List.all_eq_true]
  constructor
  · exact decide_eq_true h.1
  · intro r hr
    rw [List.mem_range] at hr
    obtain ⟨v, hv⟩ : ∃ v, sget s r = some v :=
      ⟨s.get ⟨r, hr⟩, by rw [sget, List.get?_eq_get hr]⟩
    obtain ⟨v', hv', hk⟩ := h.2 r v hv
    simp only [hv, hv']
    simp [hk]

/-- One step transition never reassigns a cell of the current grid (in
this embedding the current cells are a read-only input, mirroring the
code, which writes only into the freshly allocated next grid and swaps
at the end), and it never changes the dynamic type of any entity the
current grid references: the store only grows, and every existing
reference still resolves to an entity of the same kind.  (The counters
and energies themselves are mutated in place — see the
counterexample.) -/
theorem C1_kinds_preserved (curr : Cells) (store : Store) (n : Nat)
    (fishBreed sharkBreed starveEnergy : Int) (threads : Nat) (rng : RFun) :
    kindsPreservedB store
      (MoveEntitiesWithThreads curr store n fishBreed sharkBreed starveEnergy
        threads rng).store = true := by
  apply kindsPreservedB_of_kindExt
  unfold MoveEntitiesWithThreads
  refine foldl_kindExt _ ?_ (List.range threads) { store := store, next := emptyCells n }
  intro st i
  unfold processSection
  exact foldl_kindExt _
    (fun st p => processCell_kindExt curr n fishBreed sharkBreed starveEnergy rng st p)
    _ st

/-- A well-shaped cell array: `n` rows of `n` cells, as NewGrid builds
and every write preserves. -/
def wellShaped (n : Nat) (c : Cells) : Prop :=
  c.length = n ∧ ∀ row ∈ c, row.length = n

theorem wellShaped_empty (n : Nat) : wellShaped n (emptyCells n) := by
  constructor
  · simp [emptyCells]
  · intro row hrow
    rw [show emptyCells n = List.replicate n (List.replicate n none) from rfl] at hrow
    rw [List.eq_of_mem_replicate hrow]
    simp

theorem wellShaped_setCell (n : Nat) (c : Cells) (x y : Nat) (v : Option Ref)
    (hs : wellShaped n c) : wellShaped n (setCell c x y v) := by
  obtain ⟨hlen, hrows⟩ := hs
  unfold setCell
  rcases hrow : c.get? x with _ | row
  · exact ⟨hlen, hrows⟩
  · constructor
    · simp [hlen]
    · intro row' hrow'
      rcases List.mem_or_eq_of_mem_set hrow' with h | h
      · exact hrows row' h
      · rw [h]
        simp [hrows row (List.get?_mem hrow)]

/-- Reading back the cell just written (inside a well-shaped grid). -/
theorem getCell_setCell_self (n : Nat) (c : Cells) (x y : Nat) (v : Option Ref)
    (hs : wellShaped n c) (hx : x < n) (hy : y < n) :
    getCell (setCell c x y v) x y = v := by
  obtain ⟨hlen, hrows⟩ := hs
  have hx' : x < c.length := by omega
  obtain ⟨row, hrow⟩ : ∃ row, c.get? x = some row :=
    ⟨c.get ⟨x, hx'⟩, List.get?_eq_get hx'⟩
  have hrowlen : row.length = n := hrows row (List.get?_mem hrow)
  have h1 : (c.set x (row.set y v)).get? x = some (row.set y v) :=
    List.get?_set_eq_of_lt _ hx'
  have h2 : (row.set y v).get? y = some v :=
    List.get?_set_eq_of_lt _ (by omega)
  unfold getCell setCell
  rw [hrow]
  show (((c.set x (row.set y v)).get? x).bind fun row => row.get? y).join = v
  rw [h1]
  show ((row.set y v).get? y).join = v
  rw [h2]
  rfl

/-- Writing one cell leaves every other cell unchanged. -/
theorem getCell_setCell_ne (c : Cells) (x y x' y' : Nat) (v : Option Ref)
    (h : ¬ (x = x' ∧ y = y')) :
    getCell (setCell c x y v) x' y' = getCell c x' y' := by
  unfold getCell setCell
  rcases hrow : c.get? x with _ | row
  · rfl
  · show (((c.set x (row.set y v)).get? x').bind fun row => row.get? y').join
      = ((c.get? x').bind fun row => row.get? y').join
    by_cases hx : x = x'
    · subst hx
      have hy : y ≠ y' := fun hy => h ⟨rfl, hy⟩
      have h1 : (c.set x (row.set y v)).get? x = some (row.set y v) :=
        List.get?_set_eq_of_lt _ (List.get?_eq_some.mp hrow).1
      rw [h1, hrow]
      show ((row.set y v).get? y').join = (row.get? y').join
      rw [List.get?_set_ne _ _ hy]
    · rw [List.get?_set_ne _ _ hx]

/-- Reading the reference just allocated. -/
theorem sget_alloc_self (s : Store) (v : EntityVal) :
    sget (s ++ [v]) s.length = some v := by
  show (s ++ [v]).get? s.length = some v
  rw [List.get?_eq_getElem?, List.getElem?_append_right (le_refl _)]
  simp

/-- A successful empty-neighbor scan found a nil cell. -/
theorem findEmptyAdjacent_empty (c : Cells) (n : Nat) (ds : List (Int × Int)) (x y : Nat)
    (p : Nat × Nat) (h : findEmptyAdjacent c n ds x y = some p) :
    getCell c p.1 p.2 = none := by
  induction ds with
  | nil => simp [findEmptyAdjacent] at h
  | cons d rest ih =>
      obtain ⟨dx, dy⟩ := d
      simp only [findEmptyAdjacent] at h
      split at h
      · cases h
        assumption
      · exact ih h

/-- The cell a successful empty-neighbor scan returns is a wrapped
neighbor reached by one of the scanned offsets. -/
theorem findEmptyAdjacent_mem (c : Cells) (n : Nat) (ds : List (Int × Int)) (x y : Nat)
    (p : Nat × Nat) (h : findEmptyAdjacent c n ds x y = some p) :
    ∃ d ∈ ds, p = (wrap n x d.1, wrap n y d.2) := by
  induction ds with
  | nil => simp [findEmptyAdjacent] at h
  | cons d rest ih =>
      obtain ⟨dx, dy⟩ := d
      simp only [findEmptyAdjacent] at h
      split at h
      · cases h
        exact ⟨(dx, dy), by simp, rfl⟩
      · obtain ⟨d', hd', hp⟩ := ih h
        exact ⟨d', by simp [hd'], hp⟩

/-- The empty-neighbor scan succeeds as soon as some scanned offset
reaches a nil cell. -/
theorem findEmptyAdjacent_isSome (c : Cells) (n : Nat) (ds : List (Int × Int)) (x y : Nat)
    (d : Int × Int) (hd : d ∈ ds)
    (he : getCell c (wrap n x d.1) (wrap n y d.2) = none) :
    ∃ p, findEmptyAdjacent c n ds x y = some p := by
  induction ds with
  | nil => cases hd
  | cons d0 rest ih =>
      obtain ⟨dx, dy⟩ := d0
      simp only [findEmptyAdjacent]
      by_cases hc : getCell c (wrap n x dx) (wrap n y dy) = none
      · exact ⟨_, by rw [if_pos hc]⟩
      · rcases List.mem_cons.mp hd with h0 | h0
        · subst h0
          exact absurd he hc
        · obtain ⟨p, hp⟩ := ih h0
          exact ⟨p, by rw [if_neg hc]; exact hp⟩

/-- When exactly one reachable neighbor holds a fish, the fish scan
returns it — whichever order the offsets are scanned in, provided some
scanned offset reaches it. -/
theorem findNearestFish_eq_of_unique (c : Cells) (s : Store) (n : Nat)
    (ds : List (Int × Int)) (x y : Nat) (q : Nat × Nat)
    (h1 : ∀ d ∈ ds, isFishCell c s (wrap n x d.1) (wrap n y d.2) = true →
      (wrap n x d.1, wrap n y d.2) = q)
    (h2 : ∃ d ∈ ds, (wrap n x d.1, wrap n y d.2) = q ∧ isFishCell c s q.1 q.2 = true) :
    findNearestFish c s n ds x y = some q := by
  induction ds with
  | nil => obtain ⟨d, hd, _⟩ := h2; cases hd
  | cons d0 rest ih =>
      obtain ⟨dx, dy⟩ := d0
      simp only [findNearestFish]
      by_cases hc : isFishCell c s (wrap n x dx) (wrap n y dy) = true
      · rw [if_pos hc]
        rw [h1 (dx, dy) (by simp) hc]
      · rw [if_neg hc]
        apply ih
        · intro d hd hf
          exact h1 d (by simp [hd]) hf
        · obtain ⟨d, hd, hwrap, hq⟩ := h2
          rcases List.mem_cons.mp hd with h0 | h0
          · exfalso
            apply hc
            subst h0
            have hq' : (wrap n x dx, wrap n y dy) = q := hwrap
            rw [← hq'] at hq
            exact hq
          · exact ⟨d, h0, hwrap, hq⟩

/-- The fish scan fails when no reachable neighbor holds a fish. -/
theorem findNearestFish_eq_none (c : Cells) (s : Store) (n : Nat)
    (ds : List (Int × Int)) (x y : Nat)
    (h : ∀ d ∈ ds, isFishCell c s (wrap n x d.1) (wrap n y d.2) = false) :
    findNearestFish c s n ds x y = none := by
  induction ds with
  | nil => rfl
  | cons d0 rest ih =>
      obtain ⟨dx, dy⟩ := d0
      simp only [findNearestFish]
      rw [if_neg (by simp [h (dx, dy) (by simp)])]
      exact ih fun d hd => h d (by simp [hd])

/-- A fish whose incremented breed counter reaches fishBreedAge leaves
two fish when (and only when) it was able to move: if an empty adjacent
cell was found, the parent sits there with its counter reset to 0 and a
fresh offspring with counter 0 occupies the original cell; if no empty
adjacent cell was found, the offspring write overwrites the parent's
stay-write, and the original cell holds only the fresh offspring (a
reference distinct from the parent). -/
theorem C3_amended (curr : Cells) (n : Nat) (fishBreed : Int) (rng : RFun)
    (r : Ref) (x y : Nat) (st : St) (bc : Int)
    (hn : 1 ≤ n) (hx : x < n) (hy : y < n)
    (hshape : wellShaped n st.next)
    (hcur : getCell curr x y = some r)
    (hsg : sget st.store r = some (.fish bc))
    (hb : fishBreed ≤ bc + 1) :
    (∀ nx ny, findEmptyAdjacent curr n (rng x y 0) x y = some (nx, ny) →
      getCell (processFish curr n fishBreed rng r x y st).next nx ny = some r ∧
      getCell (processFish curr n fishBreed rng r x y st).next x y
        = some st.store.length ∧
      sget (processFish curr n fishBreed rng r x y st).store r = some (.fish 0) ∧
      sget (processFish curr n fishBreed rng r x y st).store st.store.length
        = some (.fish 0)) ∧
    (findEmptyAdjacent curr n (rng x y 0) x y = none →
      getCell (processFish curr n fishBreed rng r x y st).next x y
        = some st.store.length ∧
      st.store.length ≠ r ∧
      sget (processFish curr n fishBreed rng r x y st).store st.store.length
        = some (.fish 0)) := by
  have hr : r < st.store.length := lt_of_sget_eq_some _ _ _ hsg
  have hlen : (sset st.store r (.fish 0)).length = st.store.length :=
    length_sset st.store r (.fish 0)
  have hstore2 : sget ((sset st.store r (.fish 0)) ++ [EntityVal.fish 0]) r
      = some (.fish 0) := by
    rw [sget_append_lt (sset st.store r (.fish 0)) [EntityVal.fish 0] r
      (by rw [hlen]; exact hr)]
    exact sget_sset_self _ _ _ hr
  have hstore3 : sget ((sset st.store r (.fish 0)) ++ [EntityVal.fish 0]) st.store.length
      = some (.fish 0) := by
    rw [show st.store.length = (sset st.store r (.fish 0)).length from hlen.symm]
    exact sget_alloc_self _ _
  constructor
  · intro nx ny hfe
    have hempty := findEmptyAdjacent_empty curr n (rng x y 0) x y (nx, ny) hfe
    have hbounds := findEmptyAdjacent_lt curr n (rng x y 0) x y (nx, ny) hn hfe
    have hne : ¬ (x = nx ∧ y = ny) := by
      rintro ⟨h1, h2⟩
      rw [← h1, ← h2] at hempty
      rw [hcur] at hempty
      cases hempty
    have hshape1 : wellShaped n (setCell st.next nx ny (some r)) :=
      wellShaped_setCell n st.next nx ny (some r) hshape
    simp only [processFish, hfe]
    rw [hsg]
    dsimp only
    rw [if_pos hb]
    dsimp only [alloc]
    refine ⟨?_, ?_, ?_, ?_⟩
    · rw [getCell_setCell_ne _ x y nx ny _ hne]
      exact getCell_setCell_self n st.next nx ny (some r) hshape hbounds.1 hbounds.2
    · rw [getCell_setCell_self n _ x y _ hshape1 hx hy]
      rw [hlen]
    · exact hstore2
    · exact hstore3
  · intro hfe
    have hshape1 : wellShaped n (setCell st.next x y (some r)) :=
      wellShaped_setCell n st.next x y (some r) hshape
    simp only [processFish, hfe]
    rw [hsg]
    dsimp only
    rw [if_pos hb]
    dsimp only [alloc]
    refine ⟨?_, ?_, ?_⟩
    · rw [getCell_setCell_self n _ x y _ hshape1 hx hy]
      rw [hlen]
    · exact Nat.ne_of_gt hr
    · exact hstore3

/-- Witness: a 2×2 grid whose only fish (at (0,0), `fishBreed = 1`)
moves to the empty cell (1,0) and leaves a fresh offspring (reference 1)
at (0,0), both with breed counter 0. -/
theorem C3_witness :
    getCell (processFish [[some 0, none], [none, none]] 2 1 (fun _ _ _ => dirs)
        0 0 0 { store := [EntityVal.fish 0], next := emptyCells 2 }).next 1 0
      = some 0 ∧
    getCell (processFish [[some 0, none], [none, none]] 2 1 (fun _ _ _ => dirs)
        0 0 0 { store := [EntityVal.fish 0], next := emptyCells 2 }).next 0 0
      = some 1 ∧
    sget (processFish [[some 0, none], [none, none]] 2 1 (fun _ _ _ => dirs)
        0 0 0 { store := [EntityVal.fish 0], next := emptyCells 2 }).store 0
      = some (.fish 0) ∧
    sget (processFish [[some 0, none], [none, none]] 2 1 (fun _ _ _ => dirs)
        0 0 0 { store := [EntityVal.fish 0], next := emptyCells 2 }).store 1
      = some (.fish 0) :=
  (C3_amended [[some 0, none], [none, none]] 2 1 (fun _ _ _ => dirs) 0 0 0
    { store := [EntityVal.fish 0], next := emptyCells 2 } 0
    (by decide) (by decide) (by decide) ⟨by decide, by decide⟩ (by decide) (by decide)
    (by decide)).1 1 0 (by decide)

/-- Dispatching an empty cell changes nothing. -/
theorem processCell_none (curr : Cells) (n : Nat) (fb sb se : Int) (rng : RFun)
    (st : St) (p : Nat × Nat) (h : getCell curr p.1 p.2 = none) :
    processCell curr n fb sb se rng st p = st := by
  simp only [processCell, h]

/-- A non-breeding fish that found an empty neighbor: it is written
there and its counter is bumped in place. -/
theorem processFish_move (curr : Cells) (n : Nat) (fishBreed : Int) (rng : RFun)
    (r : Ref) (x y : Nat) (st : St) (bc : Int) (nx ny : Nat)
    (hsg : sget st.store r = some (.fish bc))
    (hfe : findEmptyAdjacent curr n (rng x y 0) x y = some (nx, ny))
    (hnb : ¬ fishBreed ≤ bc + 1) :
    processFish curr n fishBreed rng r x y st
      = { store := sset st.store r (.fish (bc + 1)),
          next := setCell st.next nx ny (some r) } := by
  simp only [processFish, hfe]
  rw [hsg]
  dsimp only
  rw [if_neg hnb]

/-- A surviving, non-breeding shark that found an adjacent fish: it is
written onto the fish's cell, its energy decrement and reset to
`starveEnergy` and its counter bump all happen in place. -/
theorem processShark_eat (curr : Cells) (n : Nat) (sharkBreed starveEnergy : Int)
    (rng : RFun) (r : Ref) (x y : Nat) (st : St) (bc en : Int) (nx ny : Nat)
    (hsg : sget st.store r = some (.shark bc en))
    (hen : ¬ en - 1 ≤ 0)
    (hff : findNearestFish curr (sset st.store r (.shark bc (en - 1))) n
      (rng x y 0) x y = some (nx, ny))
    (hnb : ¬ sharkBreed ≤ bc + 1) :
    processShark curr n sharkBreed starveEnergy rng r x y st
      = { store := sset (sset (sset st.store r (.shark bc (en - 1))) r
            (.shark bc starveEnergy)) r (.shark (bc + 1) starveEnergy),
          next := setCell st.next nx ny (some r) } := by
  have hr : r < st.store.length := lt_of_sget_eq_some _ _ _ hsg
  have hr1 : r < (sset st.store r (.shark bc (en - 1))).length := by
    rw [length_sset]; exact hr
  simp only [processShark, hsg]
  rw [if_neg hen]
  rw [hff]
  dsimp only
  rw [sget_sset_self _ _ _ hr1]
  dsimp only
  rw [if_neg hnb]

/-- In the 3×3 scenario — shark at (0,0) with energy 5, fish at (0,1),
`starveEnergy = 5`, breed ages 100, one worker — for every randomized
direction order (any permutation of the direction table at every call),
after one chronon the shark occupies (0,1) with energy 5 and breed
counter 1, and the fish count is unchanged: the fish survives by moving
to one of its empty neighbors, so `CountEntities` still reports one fish
(and one shark) instead of the claimed decrease. -/
theorem C2_amended (rng : RFun) (hperm : ∀ x y k, (rng x y k).Perm dirs) :
    getCell (MoveEntitiesWithThreads
        [[some 0, some 1, none], [none, none, none], [none, none, none]]
        [EntityVal.shark 0 5, EntityVal.fish 0] 3 100 100 5 1 rng).next 0 1
      = some 0 ∧
    sget (MoveEntitiesWithThreads
        [[some 0, some 1, none], [none, none, none], [none, none, none]]
        [EntityVal.shark 0 5, EntityVal.fish 0] 3 100 100 5 1 rng).store 0
      = some (.shark 1 5) ∧
    CountEntities 3
      (MoveEntitiesWithThreads
        [[some 0, some 1, none], [none, none, none], [none, none, none]]
        [EntityVal.shark 0 5, EntityVal.fish 0] 3 100 100 5 1 rng).next
      (MoveEntitiesWithThreads
        [[some 0, some 1, none], [none, none, none], [none, none, none]]
        [EntityVal.shark 0 5, EntityVal.fish 0] 3 100 100 5 1 rng).store
      = (1, 1) := by
  have hff : findNearestFish
      [[some 0, some 1, none], [none, none, none], [none, none, none]]
      (sset [EntityVal.shark 0 5, EntityVal.fish 0] 0 (.shark 0 4)) 3 (rng 0 0 0) 0 0
      = some (0, 1) := by
    apply findNearestFish_eq_of_unique
    · intro d hd hf
      have hd' : d ∈ dirs := ((hperm 0 0 0).mem_iff).mp hd
      clear hd
      revert hf
      fin_cases hd' <;> decide
    · exact ⟨(0, 1), ((hperm 0 0 0).mem_iff).mpr (by decide), by decide, by decide⟩
  obtain ⟨p, hp⟩ := findEmptyAdjacent_isSome
    [[some 0, some 1, none], [none, none, none], [none, none, none]]
    3 (rng 0 1 0) 0 1 (-1, 0) (((hperm 0 1 0).mem_iff).mpr (by decide)) (by decide)
  have hpmem : p = ((2 : Nat), (1 : Nat)) ∨ p = (1, 1) ∨ p = (0, 2) := by
    obtain ⟨d, hd, hpd⟩ := findEmptyAdjacent_mem
      [[some 0, some 1, none], [none, none, none], [none, none, none]]
      3 (rng 0 1 0) 0 1 p hp
    have hempty := findEmptyAdjacent_empty
      [[some 0, some 1, none], [none, none, none], [none, none, none]]
      3 (rng 0 1 0) 0 1 p hp
    have hd' : d ∈ dirs := ((hperm 0 1 0).mem_iff).mp hd
    clear hd
    revert hpd hempty
    fin_cases hd' <;> intro hpd hempty <;> subst hpd
    · exact Or.inl (by decide)
    · exact Or.inr (Or.inl (by decide))
    · exact absurd hempty (by decide)
    · exact Or.inr (Or.inr (by decide))
  have hfinal : MoveEntitiesWithThreads
      [[some 0, some 1, none], [none, none, none], [none, none, none]]
      [EntityVal.shark 0 5, EntityVal.fish 0] 3 100 100 5 1 rng
      = { store := sset [EntityVal.shark 1 5, EntityVal.fish 0] 1 (.fish 1),
          next := setCell (setCell (emptyCells 3) 0 1 (some 0)) p.1 p.2 (some 1) } := by
    have hfold : MoveEntitiesWithThreads
        [[some 0, some 1, none], [none, none, none], [none, none, none]]
        [EntityVal.shark 0 5, EntityVal.fish 0] 3 100 100 5 1 rng
        = List.foldl (processCell
            [[some 0, some 1, none], [none, none, none], [none, none, none]]
            3 100 100 5 rng)
            { store := [EntityVal.shark 0 5, EntityVal.fish 0], next := emptyCells 3 }
            [(0, 0), (0, 1), (0, 2), (1, 0), (1, 1), (1, 2), (2, 0), (2, 1), (2, 2)] := rfl
    rw [hfold]
    simp only [List.foldl_cons, List.foldl_nil]
    rw [show processCell
        [[some 0, some 1, none], [none, none, none], [none, none, none]] 3 100 100 5 rng
        { store := [EntityVal.shark 0 5, EntityVal.fish 0], next := emptyCells 3 } (0, 0)
        = processShark [[some 0, some 1, none], [none, none, none], [none, none, none]]
            3 100 5 rng 0 0 0
            { store := [EntityVal.shark 0 5, EntityVal.fish 0], next := emptyCells 3 }
        from rfl]
    rw [processShark_eat
      [[some 0, some 1, none], [none, none, none], [none, none, none]] 3 100 5 rng
      0 0 0 _ 0 5 0 1 (by decide) (by decide) hff (by decide)]
    dsimp only
    rw [show sset (sset (sset [EntityVal.shark 0 5, EntityVal.fish 0] 0
        (.shark 0 (5 - 1))) 0 (.shark 0 5)) 0 (.shark (0 + 1) 5)
        = [EntityVal.shark 1 5, EntityVal.fish 0] by decide]
    rw [show processCell
        [[some 0, some 1, none], [none, none, none], [none, none, none]] 3 100 100 5 rng
        { store := [EntityVal.shark 1 5, EntityVal.fish 0],
          next := setCell (emptyCells 3) 0 1 (some 0) } (0, 1)
        = processFish [[some 0, some 1, none], [none, none, none], [none, none, none]]
            3 100 rng 1 0 1
            { store := [EntityVal.shark 1 5, EntityVal.fish 0],
              next := setCell (emptyCells 3) 0 1 (some 0) }
        from rfl]
    rw [processFish_move
      [[some 0, some 1, none], [none, none, none], [none, none, none]] 3 100 rng
      1 0 1 _ 0 p.1 p.2 (by decide) hp (by decide)]
    rw [processCell_none
        [[some 0, some 1, none], [none, none, none], [none, none, none]]
        3 100 100 5 rng _ (0, 2) (by decide),
      processCell_none [[some 0, some 1, none], [none, none, none], [none, none, none]]
        3 100 100 5 rng _ (1, 0) (by decide),
      processCell_none [[some 0, some 1, none], [none, none, none], [none, none, none]]
        3 100 100 5 rng _ (1, 1) (by decide),
      processCell_none [[some 0, some 1, none], [none, none, none], [none, none, none]]
        3 100 100 5 rng _ (1, 2) (by decide),
      processCell_none [[some 0, some 1, none], [none, none, none], [none, none, none]]
        3 100 100 5 rng _ (2, 0) (by decide),
      processCell_none [[some 0, some 1, none], [none, none, none], [none, none, none]]
        3 100 100 5 rng _ (2, 1) (by decide),
      processCell_none [[some 0, some 1, none], [none, none, none], [none, none, none]]
        3 100 100 5 rng _ (2, 2) (by decide)]
    rfl
  rcases hpmem with h | h | h <;> subst h <;> rw [hfinal] <;>
    exact ⟨by decide, by decide, by decide⟩

/-- Witness: the scenario at the unshuffled direction order. -/
theorem C2_witness :
    getCell (MoveEntitiesWithThreads
        [[some 0, some 1, none], [none, none, none], [none, none, none]]
        [EntityVal.shark 0 5, EntityVal.fish 0] 3 100 100 5 1
        (fun _ _ _ => dirs)).next 0 1 = some 0 ∧
    sget (MoveEntitiesWithThreads
        [[some 0, some 1, none], [none, none, none], [none, none, none]]
        [EntityVal.shark 0 5, EntityVal.fish 0] 3 100 100 5 1
        (fun _ _ _ => dirs)).store 0 = some (.shark 1 5) ∧
    CountEntities 3
      (MoveEntitiesWithThreads
        [[some 0, some 1, none], [none, none, none], [none, none, none]]
        [EntityVal.shark 0 5, EntityVal.fish 0] 3 100 100 5 1
        (fun _ _ _ => dirs)).next
      (MoveEntitiesWithThreads
        [[some 0, some 1, none], [none, none, none], [none, none, none]]
        [EntityVal.shark 0 5, EntityVal.fish 0] 3 100 100 5 1
        (fun _ _ _ => dirs)).store
      = (1, 1) :=
  C2_amended (fun _ _ _ => dirs) (fun _ _ _ => List.Perm.refl dirs)

/-- A next-grid write: target coordinates and the written reference. -/
abbrev Write := Nat × Nat × Ref

/-- Apply a list of writes to a cell array, in order (last writer
wins). -/
def applyWrites (c : Cells) (ws : List Write) : Cells :=
  ws.foldl (fun c w => setCell c w.1 w.2.1 (some w.2.2)) c

/-- The next-grid writes processFish performs for one fish, in order:
the move-or-stay write of the parent, then the offspring write (at the
original cell, with the reference the allocation will return) when the
incremented counter reaches the breed age. -/
def fishWrites (curr : Cells) (n : Nat) (fishBreed : Int) (rng : RFun)
    (r : Ref) (x y : Nat) (st : St) : List Write :=
  let w1 : Write :=
    match findEmptyAdjacent curr n (rng x y 0) x y with
    | some (nx, ny) => (nx, ny, r)
    | none => (x, y, r)
  match sget st.store r with
  | some (.fish bc) =>
      if fishBreed ≤ bc + 1 then [w1, (x, y, st.store.length)] else [w1]
  | _ => [w1]

/-- The next-grid writes processShark performs for one shark: none when
it starves, otherwise the eat-or-move-or-stay write, then the offspring
write when the incremented counter reaches the breed age. -/
def sharkWrites (curr : Cells) (n : Nat) (sharkBreed starveEnergy : Int) (rng : RFun)
    (r : Ref) (x y : Nat) (st : St) : List Write :=
  match sget st.store r with
  | some (.shark bc en) =>
      if en - 1 ≤ 0 then []
      else
        let w1 : Write :=
          match findNearestFish curr (sset st.store r (.shark bc (en - 1))) n
              (rng x y 0) x y with
          | some (nx, ny) => (nx, ny, r)
          | none =>
              match findEmptyAdjacent curr n (rng x y 1) x y with
              | some (nx, ny) => (nx, ny, r)
              | none => (x, y, r)
        if sharkBreed ≤ bc + 1 then [w1, (x, y, st.store.length)] else [w1]
  | _ => []

/-- The next-grid writes of dispatching one cell. -/
def cellWrites (curr : Cells) (n : Nat) (fb sb se : Int) (rng : RFun)
    (st : St) (p : Nat × Nat) : List Write :=
  match getCell curr p.1 p.2 with
  | some r =>
      match sget st.store r with
      | some (.fish _) => fishWrites curr n fb rng r p.1 p.2 st
      | some (.shark _ _) => sharkWrites curr n sb se rng r p.1 p.2 st
      | none => []
  | none => []

/-- The next-grid writes of a whole scan, in processing order. -/
def runWrites (curr : Cells) (n : Nat) (fb sb se : Int) (rng : RFun) :
    List (Nat × Nat) → St → List Write
  | [], _ => []
  | p :: ps, st =>
      cellWrites curr n fb sb se rng st p
        ++ runWrites curr n fb sb se rng ps (processCell curr n fb sb se rng st p)

theorem applyWrites_append (c : Cells) (ws1 ws2 : List Write) :
    applyWrites c (ws1 ++ ws2) = applyWrites (applyWrites c ws1) ws2 :=
  List.foldl_append _ _ _ _

/-- Processing one fish writes exactly its write list into the next
grid. -/
theorem processFish_next (curr : Cells) (n : Nat) (fb : Int) (rng : RFun)
    (r : Ref) (x y : Nat) (st : St) :
    (processFish curr n fb rng r x y st).next
      = applyWrites st.next (fishWrites curr n fb rng r x y st) := by
  unfold processFish fishWrites
  split <;>
  · dsimp only
    split
    · split
      · simp only [applyWrites, List.foldl_cons, List.foldl_nil, alloc, length_sset]
      · simp only [applyWrites, List.foldl_cons, List.foldl_nil]
    · simp only [applyWrites, List.foldl_cons, List.foldl_nil]

/-- Processing one shark writes exactly its write list into the next
grid. -/
theorem processShark_next (curr : Cells) (n : Nat) (sb se : Int) (rng : RFun)
    (r : Ref) (x y : Nat) (st : St) :
    (processShark curr n sb se rng r x y st).next
      = applyWrites st.next (sharkWrites curr n sb se rng r x y st) := by
  unfold processShark sharkWrites
  split
  · rename_i bc en heq
    dsimp only
    split
    · rfl
    · rcases hff : findNearestFish curr (sset st.store r (.shark bc (en - 1))) n
        (rng x y 0) x y with _ | ⟨nx, ny⟩
      · rcases hfe : findEmptyAdjacent curr n (rng x y 1) x y with _ | ⟨mx, my⟩ <;>
        · dsimp only
          rw [sget_sset_self _ _ _ (lt_of_sget_eq_some _ _ _ heq)]
          dsimp only
          split
          · simp only [applyWrites, List.foldl_cons, List.foldl_nil, alloc, length_sset]
          · simp only [applyWrites, List.foldl_cons, List.foldl_nil]
      · dsimp only
        rw [sget_sset_self _ _ _
          (by rw [length_sset]; exact lt_of_sget_eq_some _ _ _ heq)]
        dsimp only
        split
        · simp only [applyWrites, List.foldl_cons, List.foldl_nil, alloc, length_sset]
        · simp only [applyWrites, List.foldl_cons, List.foldl_nil]
  · rfl

/-- Dispatching one cell writes exactly its write list. -/
theorem processCell_next (curr : Cells) (n : Nat) (fb sb se : Int) (rng : RFun)
    (st : St) (p : Nat × Nat) :
    (processCell curr n fb sb se rng st p).next
      = applyWrites st.next (cellWrites curr n fb sb se rng st p) := by
  unfold processCell cellWrites
  split
  · split
    · exact processFish_next curr n fb rng _ p.1 p.2 st
    · exact processShark_next curr n sb se rng _ p.1 p.2 st
    · rfl
  · rfl

/-- A whole scan writes exactly its write list. -/
theorem processCells_next (curr : Cells) (n : Nat) (fb sb se : Int) (rng : RFun) :
    ∀ (l : List (Nat × Nat)) (st : St),
      (l.foldl (processCell curr n fb sb se rng) st).next
        = applyWrites st.next (runWrites curr n fb sb se rng l st) := by
  intro l
  induction l with
  | nil => intro st; rfl
  | cons p ps ih =>
      intro st
      rw [List.foldl_cons, ih, runWrites, applyWrites_append,
        processCell_next curr n fb sb se rng st p]

/-- Dispatching a cell can only grow the store. -/
theorem processCell_store_len (curr : Cells) (n : Nat) (fb sb se : Int) (rng : RFun)
    (st : St) (p : Nat × Nat) :
    st.store.length ≤ (processCell curr n fb sb se rng st p).store.length :=
  (processCell_kindExt curr n fb sb se rng st p).1

/-- Processing a fish leaves every other existing reference's value
untouched. -/
theorem processFish_store_stable (curr : Cells) (n : Nat) (fb : Int) (rng : RFun)
    (r : Ref) (x y : Nat) (st : St) (r' : Ref)
    (hlt : r' < st.store.length) (hrr : r ≠ r') :
    sget (processFish curr n fb rng r x y st).store r' = sget st.store r' := by
  unfold processFish
  split <;>
  · dsimp only
    split
    · split
      · dsimp only [alloc]
        rw [sget_append_lt _ _ r' (by rw [length_sset]; exact hlt),
          sget_sset_ne _ _ _ _ hrr]
      · exact sget_sset_ne _ _ _ _ hrr
    · rfl

/-- Processing a shark leaves every other existing reference's value
untouched. -/
theorem processShark_store_stable (curr : Cells) (n : Nat) (sb se : Int) (rng : RFun)
    (r : Ref) (x y : Nat) (st : St) (r' : Ref)
    (hlt : r' < st.store.length) (hrr : r ≠ r') :
    sget (processShark curr n sb se rng r x y st).store r' = sget st.store r' := by
  unfold processShark
  split
  · rename_i bc en heq
    dsimp only
    split
    · exact sget_sset_ne _ _ _ _ hrr
    · rcases hff : findNearestFish curr (sset st.store r (.shark bc (en - 1))) n
        (rng x y 0) x y with _ | ⟨nx, ny⟩
      · rcases hfe : findEmptyAdjacent curr n (rng x y 1) x y with _ | ⟨mx, my⟩ <;>
        · dsimp only
          rw [sget_sset_self _ _ _ (lt_of_sget_eq_some _ _ _ heq)]
          dsimp only
          split
          · dsimp only [alloc]
            rw [sget_append_lt _ _ r' (by rw [length_sset, length_sset]; exact hlt),
              sget_sset_ne _ _ _ _ hrr, sget_sset_ne _ _ _ _ hrr]
          · rw [sget_sset_ne _ _ _ _ hrr, sget_sset_ne _ _ _ _ hrr]
      · dsimp only
        rw [sget_sset_self _ _ _
          (by rw [length_sset]; exact lt_of_sget_eq_some _ _ _ heq)]
        dsimp only
        split
        · dsimp only [alloc]
          rw [sget_append_lt _ _ r'
              (by rw [length_sset, length_sset, length_sset]; exact hlt),
            sget_sset_ne _ _ _ _ hrr, sget_sset_ne _ _ _ _ hrr,
            sget_sset_ne _ _ _ _ hrr]
        · rw [sget_sset_ne _ _ _ _ hrr, sget_sset_ne _ _ _ _ hrr,
            sget_sset_ne _ _ _ _ hrr]
  · rfl

/-- Dispatching one cell only mutates the reference held by that cell
(and allocates fresh ones): every other existing reference keeps its
value. -/
theorem processCell_store_stable (curr : Cells) (n : Nat) (fb sb se : Int) (rng : RFun)
    (st : St) (p : Nat × Nat) (r' : Ref)
    (hlt : r' < st.store.length)
    (hne : getCell curr p.1 p.2 ≠ some r') :
    sget (processCell curr n fb sb se rng st p).store r' = sget st.store r' := by
  unfold processCell
  split
  · rename_i r heq
    have hrr : r ≠ r' := fun h => hne (h ▸ heq)
    split
    · exact processFish_store_stable curr n fb rng r p.1 p.2 st r' hlt hrr
    · exact processShark_store_stable curr n sb se rng r p.1 p.2 st r' hlt hrr
    · rfl
  · rfl

/-- Per-cell contribution to the next grid's population: 0 for an empty
cell or a starving shark, 2 for a breeder, 1 otherwise. -/
def cellContrib (curr : Cells) (store : Store) (fb sb : Int) (p : Nat × Nat) : Nat :=
  match getCell curr p.1 p.2 with
  | some r =>
      match sget store r with
      | some (.fish bc) => if fb ≤ bc + 1 then 2 else 1
      | some (.shark bc en) => if en - 1 ≤ 0 then 0 else if sb ≤ bc + 1 then 2 else 1
      | none => 0
  | none => 0

/-- A cell's write count is its population contribution. -/
theorem cellWrites_length (curr : Cells) (n : Nat) (fb sb se : Int) (rng : RFun)
    (st : St) (p : Nat × Nat) :
    (cellWrites curr n fb sb se rng st p).length = cellContrib curr st.store fb sb p := by
  unfold cellWrites cellContrib
  split
  · rename_i r heq
    split
    · rename_i bc heq2
      unfold fishWrites
      rw [heq2]
      dsimp only
      split <;> rfl
    · rename_i bc en heq2
      unfold sharkWrites
      rw [heq2]
      dsimp only
      split
      · rfl
      · split <;> rfl
    · rfl
  · rfl

/-- The contribution only reads the entity behind the cell's reference:
stores agreeing there give the same contribution. -/
theorem cellContrib_congr (curr : Cells) (s s' : Store) (fb sb : Int) (p : Nat × Nat)
    (h : ∀ r, getCell curr p.1 p.2 = some r → sget s r = sget s' r) :
    cellContrib curr s fb sb p = cellContrib curr s' fb sb p := by
  unfold cellContrib
  split
  · rename_i r heq
    rw [h r heq]
  · rfl

/-- The references held by the cells of a scan, in scan order. -/
def gridRefsOf (curr : Cells) (l : List (Nat × Nat)) : List Ref :=
  l.filterMap fun p => getCell curr p.1 p.2

theorem gridRefsOf_cons_some (curr : Cells) (p : Nat × Nat) (ps : List (Nat × Nat))
    (r : Ref) (h : getCell curr p.1 p.2 = some r) :
    gridRefsOf curr (p :: ps) = r :: gridRefsOf curr ps := by
  simp [gridRefsOf, h]

theorem gridRefsOf_cons_none (curr : Cells) (p : Nat × Nat) (ps : List (Nat × Nat))
    (h : getCell curr p.1 p.2 = none) :
    gridRefsOf curr (p :: ps) = gridRefsOf curr ps := by
  simp [gridRefsOf, h]

theorem mem_gridRefsOf (curr : Cells) (ps : List (Nat × Nat)) (q : Nat × Nat) (r : Ref)
    (hq : q ∈ ps) (h : getCell curr q.1 q.2 = some r) : r ∈ gridRefsOf curr ps := by
  rw [gridRefsOf, List.mem_filterMap]
  exact ⟨q, hq, h⟩

/-- With distinct, resolving references, the number of writes of a scan
equals the summed contributions computed from the initial store: each
entity is processed while its counters still hold their start-of-chronon
values. -/
theorem runWrites_length (curr : Cells) (n : Nat) (fb sb se : Int) (rng : RFun)
    (store0 : Store) :
    ∀ (l : List (Nat × Nat)) (st : St),
      (∀ p ∈ l, ∀ r, getCell curr p.1 p.2 = some r →
        r < store0.length ∧ sget st.store r = sget store0 r) →
      (gridRefsOf curr l).Nodup →
      store0.length ≤ st.store.length →
      (runWrites curr n fb sb se rng l st).length
        = (l.map (cellContrib curr store0 fb sb)).sum := by
  intro l
  induction l with
  | nil => intro st _ _ _; rfl
  | cons p ps ih =>
      intro st hagree hnodup hlen
      rw [runWrites, List.length_append, cellWrites_length, List.map_cons, List.sum_cons]
      have hc : cellContrib curr st.store fb sb p = cellContrib curr store0 fb sb p :=
        cellContrib_congr curr st.store store0 fb sb p
          (fun r hr => (hagree p (by simp) r hr).2)
      rw [hc]
      congr 1
      apply ih
      · intro q hq r' hr'
        refine ⟨(hagree q (by simp [hq]) r' hr').1, ?_⟩
        rcases hgc : getCell curr p.1 p.2 with _ | r
        · rw [processCell_none curr n fb sb se rng st p hgc]
          exact (hagree q (by simp [hq]) r' hr').2
        · by_cases hrr : r = r'
          · exfalso
            subst hrr
            rw [gridRefsOf_cons_some curr p ps r hgc] at hnodup
            exact (List.nodup_cons.mp hnodup).1 (mem_gridRefsOf curr ps q r hq hr')
          · rw [processCell_store_stable curr n fb sb se rng st p r'
              (lt_of_lt_of_le (hagree q (by simp [hq]) r' hr').1 hlen)
              (by rw [hgc]; intro hcon; exact hrr (Option.some.inj hcon))]
            exact (hagree q (by simp [hq]) r' hr').2
      · rcases hgc : getCell curr p.1 p.2 with _ | r
        · rw [gridRefsOf_cons_none curr p ps hgc] at hnodup
          exact hnodup
        · rw [gridRefsOf_cons_some curr p ps r hgc] at hnodup
          exact (List.nodup_cons.mp hnodup).2
      · exact le_trans hlen (processCell_store_len curr n fb sb se rng st p)

theorem getCell_empty (n x y : Nat) : getCell (emptyCells n) x y = none := by
  unfold getCell emptyCells
  rw [List.get?_eq_getElem?, List.getElem?_replicate]
  by_cases hx : x < n
  · rw [if_pos hx]
    show ((List.replicate n (none : Option Ref)).get? y).join = none
    rw [List.get?_eq_getElem?, List.getElem?_replicate]
    by_cases hy : y < n
    · rw [if_pos hy]; rfl
    · rw [if_neg hy]; rfl
  · rw [if_neg hx]; rfl

/-- The full scan is the product of the row and column ranges. -/
theorem sectionPairs_zero (n : Nat) :
    sectionPairs n 0 n
      = (List.range n).flatMap fun x => (List.range n).map fun y => (x, y) := by
  unfold sectionPairs
  have h : (List.range (n - 0)).map (fun x => x + 0) = List.range n := by simp
  rw [h]

theorem mem_sectionPairs (n : Nat) (p : Nat × Nat) :
    p ∈ sectionPairs n 0 n ↔ p.1 < n ∧ p.2 < n := by
  obtain ⟨a, b⟩ := p
  rw [sectionPairs_zero]
  simp only [List.mem_flatMap, List.mem_map, List.mem_range]
  constructor
  · rintro ⟨x, hx, y, hy, h⟩
    cases h
    exact ⟨hx, hy⟩
  · rintro ⟨h1, h2⟩
    exact ⟨a, h1, b, h2, rfl⟩

theorem sectionPairs_nodup (n : Nat) : (sectionPairs n 0 n).Nodup := by
  rw [sectionPairs_zero]
  have h : ((List.range n).flatMap fun x => (List.range n).map fun y => (x, y))
      = List.product (List.range n) (List.range n) := rfl
  rw [h]
  exact List.Nodup.product (List.nodup_range _) (List.nodup_range _)

/-- Length of the store an allocation returns. -/
theorem alloc_fst_length (s : Store) (v : EntityVal) :
    ((alloc s v).1).length = s.length + 1 := by
  simp [alloc]

/-- Every write of one fish's dispatch targets in-bounds coordinates
and carries a reference valid in the store the dispatch leaves. -/
theorem processFish_writes_facts (curr : Cells) (n : Nat) (fb : Int) (rng : RFun)
    (r : Ref) (x y : Nat) (st : St) (hn : 1 ≤ n)
    (hx : x < n) (hy : y < n) (hr : r < st.store.length) :
    ∀ w ∈ fishWrites curr n fb rng r x y st,
      w.1 < n ∧ w.2.1 < n ∧ w.2.2 < (processFish curr n fb rng r x y st).store.length := by
  have h3 : ∀ q : Ref, q < st.store.length + 1 →
      q < ((alloc (sset st.store r (.fish 0)) (.fish 0)).1).length := by
    intro q hq
    rw [alloc_fst_length]
    simpa only [length_sset] using hq
  unfold processFish fishWrites
  split
  · rename_i q nx ny heq
    have hb := findEmptyAdjacent_lt curr n _ x y _ hn heq
    dsimp only
    split
    · split
      · intro w hw
        simp at hw
        rcases hw with hw | hw <;> subst hw
        · refine ⟨hb.1, hb.2, ?_⟩
          dsimp only
          exact h3 r (Nat.lt_succ_of_lt hr)
        · refine ⟨hx, hy, ?_⟩
          dsimp only
          exact h3 st.store.length (Nat.lt_succ_self _)
      · intro w hw
        simp at hw
        subst hw
        refine ⟨hb.1, hb.2, ?_⟩
        dsimp only
        simp only [length_sset]
        exact hr
    · intro w hw
      simp at hw
      subst hw
      exact ⟨hb.1, hb.2, hr⟩
  · rename_i q heq
    dsimp only
    split
    · split
      · intro w hw
        simp at hw
        rcases hw with hw | hw <;> subst hw
        · refine ⟨hx, hy, ?_⟩
          dsimp only
          exact h3 r (Nat.lt_succ_of_lt hr)
        · refine ⟨hx, hy, ?_⟩
          dsimp only
          exact h3 st.store.length (Nat.lt_succ_self _)
      · intro w hw
        simp at hw
        subst hw
        refine ⟨hx, hy, ?_⟩
        dsimp only
        simp only [length_sset]
        exact hr
    · intro w hw
      simp at hw
      subst hw
      exact ⟨hx, hy, hr⟩

/-- Every write of one shark's dispatch targets in-bounds coordinates
and carries a reference valid in the store the dispatch leaves. -/
theorem processShark_writes_facts (curr : Cells) (n : Nat) (sb se : Int) (rng : RFun)
    (r : Ref) (x y : Nat) (st : St) (hn : 1 ≤ n)
    (hx : x < n) (hy : y < n) (hr : r < st.store.length) :
    ∀ w ∈ sharkWrites curr n sb se rng r x y st,
      w.1 < n ∧ w.2.1 < n ∧
        w.2.2 < (processShark curr n sb se rng r x y st).store.length := by
  have h3 : ∀ (s1 : Store) (v v2 : EntityVal), s1.length = st.store.length →
      ∀ q : Ref, q < st.store.length + 1 →
        q < ((alloc (sset s1 r v) v2).1).length := by
    intro s1 v v2 hs1 q hq
    rw [alloc_fst_length]
    simp only [length_sset]
    rw [hs1]
    exact hq
  unfold processShark sharkWrites
  split
  · rename_i bc en heq
    dsimp only
    split
    · intro w hw; simp at hw
    · rcases hff : findNearestFish curr (sset st.store r (.shark bc (en - 1))) n
        (rng x y 0) x y with _ | ⟨nx, ny⟩
      · rcases hfe : findEmptyAdjacent curr n (rng x y 1) x y with _ | ⟨mx, my⟩
        · dsimp only
          rw [sget_sset_self _ _ _ hr]
          dsimp only
          split
          · intro w hw
            simp at hw
            rcases hw with hw | hw <;> subst hw
            · refine ⟨hx, hy, ?_⟩
              dsimp only
              exact h3 _ _ _ (length_sset _ _ _) r (Nat.lt_succ_of_lt hr)
            · refine ⟨hx, hy, ?_⟩
              dsimp only
              exact h3 _ _ _ (length_sset _ _ _) st.store.length (Nat.lt_succ_self _)
          · intro w hw
            simp at hw
            subst hw
            refine ⟨hx, hy, ?_⟩
            dsimp only
            simp only [length_sset]
            exact hr
        · have hb := findEmptyAdjacent_lt curr n _ x y _ hn hfe
          dsimp only
          rw [sget_sset_self _ _ _ hr]
          dsimp only
          split
          · intro w hw
            simp at hw
            rcases hw with hw | hw <;> subst hw
            · refine ⟨hb.1, hb.2, ?_⟩
              dsimp only
              exact h3 _ _ _ (length_sset _ _ _) r (Nat.lt_succ_of_lt hr)
            · refine ⟨hx, hy, ?_⟩
              dsimp only
              exact h3 _ _ _ (length_sset _ _ _) st.store.length (Nat.lt_succ_self _)
          · intro w hw
            simp at hw
            subst hw
            refine ⟨hb.1, hb.2, ?_⟩
            dsimp only
            simp only [length_sset]
            exact hr
      · have hb := findNearestFish_lt curr _ n _ x y _ hn hff
        dsimp only
        rw [sget_sset_self _ _ _ (by rw [length_sset]; exact hr)]
        dsimp only
        split
        · intro w hw
          simp at hw
          rcases hw with hw | hw <;> subst hw
          · refine ⟨hb.1, hb.2, ?_⟩
            dsimp only
            refine h3 _ _ _ ?_ r (Nat.lt_succ_of_lt hr)
            rw [length_sset, length_sset]
          · refine ⟨hx, hy, ?_⟩
            dsimp only
            refine h3 _ _ _ ?_ st.store.length (Nat.lt_succ_self _)
            rw [length_sset, length_sset]
        · intro w hw
          simp at hw
          subst hw
          refine ⟨hb.1, hb.2, ?_⟩
          dsimp only
          simp only [length_sset]
          exact hr
  · intro w hw; simp at hw

/-- Every write of one cell's dispatch targets in-bounds coordinates
and carries a reference valid in the store the dispatch leaves. -/
theorem cellWrites_facts (curr : Cells) (n : Nat) (fb sb se : Int) (rng : RFun)
    (st : St) (p : Nat × Nat) (hn : 1 ≤ n) (hx : p.1 < n) (hy : p.2 < n) :
    ∀ w ∈ cellWrites curr n fb sb se rng st p,
      w.1 < n ∧ w.2.1 < n ∧
        w.2.2 < (processCell curr n fb sb se rng st p).store.length := by
  unfold cellWrites processCell
  split
  · rename_i r heq
    split
    · rename_i bc heq2
      exact processFish_writes_facts curr n fb rng r p.1 p.2 st hn hx hy
        (lt_of_sget_eq_some _ _ _ heq2)
    · rename_i bc en heq2
      exact processShark_writes_facts curr n sb se rng r p.1 p.2 st hn hx hy
        (lt_of_sget_eq_some _ _ _ heq2)
    · intro w hw; simp at hw
  · intro w hw; simp at hw

/-- A whole scan can only grow the store. -/
theorem processCells_store_len (curr : Cells) (n : Nat) (fb sb se : Int) (rng : RFun) :
    ∀ (l : List (Nat × Nat)) (st : St),
      st.store.length ≤ ((l.foldl (processCell curr n fb sb se rng) st).store).length := by
  intro l
  induction l with
  | nil => intro st; exact le_refl _
  | cons p ps ih =>
      intro st
      exact le_trans (processCell_store_len curr n fb sb se rng st p) (ih _)

/-- Facts about every write of a whole scan: in-bounds target, and a
reference valid in the final store. -/
theorem runWrites_facts (curr : Cells) (n : Nat) (fb sb se : Int) (rng : RFun)
    (hn : 1 ≤ n) :
    ∀ (l : List (Nat × Nat)) (st : St),
      (∀ p ∈ l, p.1 < n ∧ p.2 < n) →
      ∀ w ∈ runWrites curr n fb sb se rng l st,
        w.1 < n ∧ w.2.1 < n ∧
        w.2.2 < ((l.foldl (processCell curr n fb sb se rng) st).store).length := by
  intro l
  induction l with
  | nil => intro st _ w hw; simp [runWrites] at hw
  | cons p ps ih =>
      intro st hb w hw
      rw [runWrites] at hw
      rw [List.foldl_cons]
      rcases List.mem_append.mp hw with hw | hw
      · obtain ⟨h1, h2, h3⟩ := cellWrites_facts curr n fb sb se rng st p hn
          (hb p (by simp)).1 (hb p (by simp)).2 w hw
        exact ⟨h1, h2, lt_of_lt_of_le h3
          (processCells_store_len curr n fb sb se rng ps _)⟩
      · exact ih _ (fun q hq => hb q (by simp [hq])) w hw

/-- Writes preserve the grid's shape. -/
theorem wellShaped_applyWrites (n : Nat) :
    ∀ (ws : List Write) (c : Cells), wellShaped n c → wellShaped n (applyWrites c ws) := by
  intro ws
  induction ws with
  | nil => intro c h; exact h
  | cons w t ih =>
      intro c h
      exact ih _ (wellShaped_setCell n c w.1 w.2.1 (some w.2.2) h)

/-- The CountEntities scan tallies, over any cell list and from any
starting accumulator, the fish and shark cells. -/
theorem countEntities_go (cells : Cells) (store : Store) :
    ∀ (l : List (Nat × Nat)) (a b : Nat),
      l.foldl (fun acc p =>
        (if isFishCell cells store p.1 p.2 then acc.1 + 1 else acc.1,
         if isSharkCell cells store p.1 p.2 then acc.2 + 1 else acc.2)) (a, b)
      = (a + l.countP (fun p => isFishCell cells store p.1 p.2),
         b + l.countP (fun p => isSharkCell cells store p.1 p.2)) := by
  intro l
  induction l with
  | nil => intro a b; simp
  | cons p ps ih =>
      intro a b
      rw [List.foldl_cons, List.countP_cons, List.countP_cons]
      by_cases hf : isFishCell cells store p.1 p.2 <;>
        by_cases hs : isSharkCell cells store p.1 p.2
      · rw [if_pos hf, if_pos hs, ih]
        simp [hf, hs]
        constructor <;> omega
      · rw [if_pos hf, if_neg hs, ih]
        simp [hf, hs]
        omega
      · rw [if_neg hf, if_pos hs, ih]
        simp [hf, hs]
        omega
      · rw [if_neg hf, if_neg hs, ih]
        simp [hf, hs]

/-- CountEntities is the pair of per-kind tallies over the scan. -/
theorem countEntities_eq (n : Nat) (cells : Cells) (store : Store) :
    CountEntities n cells store
      = ((sectionPairs n 0 n).countP (fun p => isFishCell cells store p.1 p.2),
         (sectionPairs n 0 n).countP (fun p => isSharkCell cells store p.1 p.2)) := by
  unfold CountEntities
  rw [countEntities_go]
  simp

/-- A cell is occupied (by a resolving reference) when it holds a fish
or a shark. -/
def occB (cells : Cells) (store : Store) (p : Nat × Nat) : Bool :=
  isFishCell cells store p.1 p.2 || isSharkCell cells store p.1 p.2

theorem not_isFish_and_isShark (c : Cells) (s : Store) (x y : Nat) :
    ¬ (isFishCell c s x y = true ∧ isSharkCell c s x y = true) := by
  rintro ⟨h1, h2⟩
  unfold isFishCell at h1
  unfold isSharkCell at h2
  rcases hgc : getCell c x y with _ | r
  · rw [hgc] at h1
    have hcon : (false : Bool) = true := h1
    cases hcon
  · have h1' : (match sget s r with
        | some (.fish _) => true
        | _ => false) = true := by rw [hgc] at h1; exact h1
    have h2' : (match sget s r with
        | some (.shark _ _) => true
        | _ => false) = true := by rw [hgc] at h2; exact h2
    rcases hsg : sget s r with _ | v
    · simp [hsg] at h1'
    · rcases v with bc | ⟨bc, en⟩
      · simp [hsg] at h2'
      · simp [hsg] at h1'

theorem countP_occB_split (cells : Cells) (store : Store) :
    ∀ l : List (Nat × Nat),
      l.countP (occB cells store)
        = l.countP (fun p => isFishCell cells store p.1 p.2)
          + l.countP (fun p => isSharkCell cells store p.1 p.2) := by
  intro l
  induction l with
  | nil => simp
  | cons p ps ih =>
      rw [List.countP_cons, List.countP_cons, List.countP_cons, ih]
      rcases hf : isFishCell cells store p.1 p.2 with _ | _
      · rcases hs : isSharkCell cells store p.1 p.2 with _ | _
        · simp [occB, hf, hs]
        · simp [occB, hf, hs]; omega
      · rcases hs : isSharkCell cells store p.1 p.2 with _ | _
        · simp [occB, hf, hs]; omega
        · exact absurd ⟨hf, hs⟩ (not_isFish_and_isShark cells store p.1 p.2)

/-- The total population is the tally of occupied, resolving cells. -/
theorem totalCount_eq (n : Nat) (cells : Cells) (store : Store) :
    totalCount n cells store = (sectionPairs n 0 n).countP (occB cells store) := by
  rw [totalCount, countEntities_eq, countP_occB_split]

/-- Where a predicate flips from false to true at exactly one member of
a duplicate-free list, the count rises by one. -/
theorem countP_update {α : Type} [DecidableEq α] :
    ∀ (l : List α), l.Nodup → ∀ (e : α), e ∈ l → ∀ (f g : α → Bool),
      (∀ x ∈ l, x ≠ e → f x = g x) → f e = false → g e = true →
      l.countP g = l.countP f + 1 := by
  intro l
  induction l with
  | nil => intro _ e he; cases he
  | cons x t ih =>
      intro hnodup e he f g hsame hf hg
      rw [List.countP_cons, List.countP_cons]
      by_cases hxe : x = e
      · subst hxe
        rw [hf, hg]
        have htail : t.countP g = t.countP f := by
          apply List.countP_congr
          intro a ha
          have hfg := hsame a (by simp [ha])
            (fun hax => (List.nodup_cons.mp hnodup).1 (hax ▸ ha))
          rw [hfg]
        rw [htail]
        simp
      · have he' : e ∈ t := by
          rcases List.mem_cons.mp he with h | h
          · exact absurd h.symm hxe
          · exact h
        rw [ih (List.nodup_cons.mp hnodup).2 e he' f g
          (fun a ha hae => hsame a (by simp [ha]) hae) hf hg]
        rw [hsame x (by simp) hxe]
        cases hgx : g x <;> simp [hgx] <;> omega

/-- Applying writes with pairwise-distinct, in-bounds targets to cells
that are all free raises the occupied count by exactly the number of
writes. -/
theorem count_applyWrites (n : Nat) (store : Store) :
    ∀ (ws : List Write) (c : Cells),
      wellShaped n c →
      (∀ w ∈ ws, w.1 < n ∧ w.2.1 < n ∧ w.2.2 < store.length) →
      (List.map (fun w => (w.1, w.2.1)) ws).Nodup →
      (∀ w ∈ ws, getCell c w.1 w.2.1 = none) →
      (sectionPairs n 0 n).countP (occB (applyWrites c ws) store)
        = (sectionPairs n 0 n).countP (occB c store) + ws.length := by
  intro ws
  induction ws with
  | nil => intro c _ _ _ _; simp [applyWrites]
  | cons w t ih =>
      intro c hshape hfacts hnodup hfree
      have hw := hfacts w (by simp)
      have hnd := List.nodup_cons.mp hnodup
      have hstep : (sectionPairs n 0 n).countP (occB (setCell c w.1 w.2.1 (some w.2.2)) store)
          = (sectionPairs n 0 n).countP (occB c store) + 1 := by
        apply countP_update (sectionPairs n 0 n) (sectionPairs_nodup n) (w.1, w.2.1)
          ((mem_sectionPairs n (w.1, w.2.1)).mpr ⟨hw.1, hw.2.1⟩)
        · intro p hp hpe
          unfold occB isFishCell isSharkCell
          rw [getCell_setCell_ne c w.1 w.2.1 p.1 p.2 (some w.2.2)
            (by rintro ⟨h1, h2⟩; exact hpe (by cases p; simp_all)) ]
        · unfold occB isFishCell isSharkCell
          rw [hfree w (by simp)]
          rfl
        · unfold occB isFishCell isSharkCell
          rw [getCell_setCell_self n c w.1 w.2.1 (some w.2.2) hshape hw.1 hw.2.1]
          obtain ⟨v, hv⟩ : ∃ v, sget store w.2.2 = some v :=
            ⟨store.get ⟨w.2.2, hw.2.2⟩, by rw [sget, List.get?_eq_get hw.2.2]⟩
          dsimp only
          rw [hv]
          rcases v with bc | ⟨bc, en⟩ <;> simp
      have happly : applyWrites c (w :: t) = applyWrites (setCell c w.1 w.2.1 (some w.2.2)) t :=
        rfl
      rw [happly]
      rw [ih (setCell c w.1 w.2.1 (some w.2.2))
        (wellShaped_setCell n c w.1 w.2.1 (some w.2.2) hshape)
        (fun w' hw' => hfacts w' (by simp [hw']))
        hnd.2
        (fun w' hw' => by
          rw [getCell_setCell_ne c w.1 w.2.1 w'.1 w'.2.1 (some w.2.2)
            (by
              rintro ⟨h1, h2⟩
              exact hnd.1 (by
                rw [List.mem_map]
                exact ⟨w', hw', by rw [← h1, ← h2]⟩))]
          exact hfree w' (by simp [hw']))]
      rw [hstep]
      simp [List.length_cons]
      omega

/-- Bool form of reference validity at one cell: a held reference
resolves in the store. -/
def cellRefValid (curr : Cells) (store : Store) (p : Nat × Nat) : Bool :=
  match getCell curr p.1 p.2 with
  | some r => decide (r < store.length)
  | none => true

theorem cellRefValid_spec (curr : Cells) (store : Store) (p : Nat × Nat)
    (h : cellRefValid curr store p = true) :
    ∀ r, getCell curr p.1 p.2 = some r → r < store.length := by
  intro r hr
  unfold cellRefValid at h
  rw [hr] at h
  exact of_decide_eq_true h

/-- Per-cell balance: the contribution plus the starvation indicator
equals the occupancy indicator plus the reproduction indicator. -/
theorem contrib_cell (curr : Cells) (store : Store) (fb sb : Int) (p : Nat × Nat) :
    cellContrib curr store fb sb p
        + (if deathP curr store p then 1 else 0)
      = (if occB curr store p then 1 else 0)
        + (if reproP curr store fb sb p then 1 else 0) := by
  unfold cellContrib deathP reproP occB isFishCell isSharkCell
  rcases hgc : getCell curr p.1 p.2 with _ | r
  · rfl
  · dsimp only
    rcases hsg : sget store r with _ | v
    · rfl
    · rcases v with bc | ⟨bc, en⟩
      · dsimp only
        by_cases hb : fb ≤ bc + 1 <;> simp [hb]
      · dsimp only
        by_cases hd : en - 1 ≤ 0
        · simp [hd]
        · by_cases hb : sb ≤ bc + 1 <;> simp [hd, hb]

/-- The summed contributions of a scan, plus its starvation deaths,
equal its occupied-cell tally plus its reproductions. -/
theorem contrib_sum (curr : Cells) (store : Store) (fb sb : Int) :
    ∀ l : List (Nat × Nat),
      (l.map (cellContrib curr store fb sb)).sum + l.countP (deathP curr store)
        = l.countP (occB curr store) + l.countP (reproP curr store fb sb) := by
  intro l
  induction l with
  | nil => rfl
  | cons p ps ih =>
      rw [List.map_cons, List.sum_cons, List.countP_cons, List.countP_cons,
        List.countP_cons]
      have hc := contrib_cell curr store fb sb p
      omega

/-- C4: with a single worker, if no two of the chronon's next-grid
writes target the same cell, the step conserves population: the next
grid's total count plus the starvation deaths equals the current total
count plus the reproductions (equivalently, after = before +
reproductions − starvation deaths). -/
theorem C4_amended (n : Nat) (curr : Cells) (store : Store) (fb sb se : Int)
    (rng : RFun) (hn : 1 ≤ n)
    (hvalid : ∀ p ∈ sectionPairs n 0 n, cellRefValid curr store p = true)
    (hrefs : (gridRefsOf curr (sectionPairs n 0 n)).Nodup)
    (hnodup : (List.map (fun w => (w.1, w.2.1))
        (runWrites curr n fb sb se rng (sectionPairs n 0 n)
          { store := store, next := emptyCells n })).Nodup) :
    totalCount n (MoveEntitiesWithThreads curr store n fb sb se 1 rng).next
        (MoveEntitiesWithThreads curr store n fb sb se 1 rng).store
      + numStarvationDeaths n curr store
      = totalCount n curr store + numReproductions n curr store fb sb := by
  have hMove : MoveEntitiesWithThreads curr store n fb sb se 1 rng
      = (sectionPairs n 0 n).foldl (processCell curr n fb sb se rng)
          { store := store, next := emptyCells n } := by
    have hr1 : List.range 1 = [0] := rfl
    simp [MoveEntitiesWithThreads, processSection, startRow, endRow, hr1]
  rw [hMove]
  have hnext : ((sectionPairs n 0 n).foldl (processCell curr n fb sb se rng)
        { store := store, next := emptyCells n }).next
      = applyWrites (emptyCells n)
          (runWrites curr n fb sb se rng (sectionPairs n 0 n)
            { store := store, next := emptyCells n }) :=
    processCells_next curr n fb sb se rng (sectionPairs n 0 n)
      { store := store, next := emptyCells n }
  have hfacts := runWrites_facts curr n fb sb se rng hn (sectionPairs n 0 n)
    { store := store, next := emptyCells n }
    (fun p hp => (mem_sectionPairs n p).mp hp)
  have hcount := count_applyWrites n
    ((sectionPairs n 0 n).foldl (processCell curr n fb sb se rng)
      { store := store, next := emptyCells n }).store
    (runWrites curr n fb sb se rng (sectionPairs n 0 n)
      { store := store, next := emptyCells n })
    (emptyCells n) (wellShaped_empty n) hfacts hnodup
    (fun w _ => getCell_empty n w.1 w.2.1)
  have hz : (sectionPairs n 0 n).countP (occB (emptyCells n)
      ((sectionPairs n 0 n).foldl (processCell curr n fb sb se rng)
        { store := store, next := emptyCells n }).store) = 0 := by
    apply List.countP_eq_zero.mpr
    intro p hp
    have hfalse : occB (emptyCells n)
        ((sectionPairs n 0 n).foldl (processCell curr n fb sb se rng)
          { store := store, next := emptyCells n }).store p = false := by
      unfold occB isFishCell isSharkCell
      rw [getCell_empty]
      rfl
    simp [hfalse]
  have hlen := runWrites_length curr n fb sb se rng store (sectionPairs n 0 n)
    { store := store, next := emptyCells n }
    (fun p hp r hr => ⟨cellRefValid_spec curr store p (hvalid p hp) r hr, rfl⟩)
    hrefs (le_refl _)
  have hsum := contrib_sum curr store fb sb (sectionPairs n 0 n)
  rw [hnext, totalCount_eq, totalCount_eq]
  unfold numStarvationDeaths numReproductions
  omega

/-- Witness: conservation on a 3×3 grid holding one non-breeding fish;
the no-collision hypotheses hold by computation. -/
theorem C4_witness :
    totalCount 3
        (MoveEntitiesWithThreads
          [[none, none, none], [none, some 0, none], [none, none, none]]
          [EntityVal.fish 0] 3 100 100 5 1 (fun _ _ _ => dirs)).next
        (MoveEntitiesWithThreads
          [[none, none, none], [none, some 0, none], [none, none, none]]
          [EntityVal.fish 0] 3 100 100 5 1 (fun _ _ _ => dirs)).store
      + numStarvationDeaths 3
          [[none, none, none], [none, some 0, none], [none, none, none]]
          [EntityVal.fish 0]
      = totalCount 3 [[none, none, none], [none, some 0, none], [none, none, none]]
          [EntityVal.fish 0]
        + numReproductions 3
            [[none, none, none], [none, some 0, none], [none, none, none]]
            [EntityVal.fish 0] 100 100 :=
  C4_amended 3 [[none, none, none], [none, some 0, none], [none, none, none]]
    [EntityVal.fish 0] 100 100 5 (fun _ _ _ => dirs)
    (by decide) (by decide) (by decide) (by decide)

theorem sset_sset (s : Store) (r : Ref) (v w : EntityVal) :
    sset (sset s r v) r w = sset s r w := by
  simp [sset, List.set_set]

/-- The dynamic type behind an optional entity value. -/
def optKind (o : Option EntityVal) : Option Bool := o.map ekind

/-- The fish test of a cell only reads the dynamic type behind the
cell's pointer. -/
theorem isFishCell_congr (c : Cells) (s s' : Store) (x y : Nat)
    (h : ∀ r, getCell c x y = some r → optKind (sget s r) = optKind (sget s' r)) :
    isFishCell c s x y = isFishCell c s' x y := by
  unfold isFishCell
  rcases hgc : getCell c x y with _ | r
  · rfl
  · dsimp only
    have hk := h r hgc
    unfold optKind at hk
    rcases hs : sget s r with _ | v <;> rw [hs] at hk
    · rcases hs2 : sget s' r with _ | w
      · rfl
      · rw [hs2] at hk
        exact Option.noConfusion hk
    · rcases hs2 : sget s' r with _ | w
      · rw [hs2] at hk
        exact Option.noConfusion hk
      · rw [hs2] at hk
        have hke : ekind v = ekind w := by
          simpa using hk
        rcases v with bc | ⟨bc, en⟩ <;> rcases w with bc2 | ⟨bc2, en2⟩
        · rfl
        · exact Bool.noConfusion (hke : (true : Bool) = false)
        · exact Bool.noConfusion (hke : (false : Bool) = true)
        · rfl

/-- findNearestFish only reads dynamic types: stores agreeing on kinds
behind every grid pointer scan identically. -/
theorem findNearestFish_congr (c : Cells) (s s' : Store) (n : Nat) (x y : Nat)
    (h : ∀ a b r, getCell c a b = some r → optKind (sget s r) = optKind (sget s' r)) :
    ∀ ds : List (Int × Int),
      findNearestFish c s n ds x y = findNearestFish c s' n ds x y := by
  intro ds
  induction ds with
  | nil => rfl
  | cons d rest ih =>
      obtain ⟨dx, dy⟩ := d
      unfold findNearestFish
      dsimp only
      rw [isFishCell_congr c s s' (wrap n x dx) (wrap n y dy)
        (fun r hr => h _ _ r hr), ih]

/-- The store processFish leaves, in closed form. -/
theorem processFish_store_eq (curr : Cells) (n : Nat) (fb : Int) (rng : RFun)
    (r : Ref) (x y : Nat) (st : St) (bc : Int)
    (hsg : sget st.store r = some (.fish bc)) :
    (processFish curr n fb rng r x y st).store
      = if fb ≤ bc + 1 then sset st.store r (.fish 0) ++ [EntityVal.fish 0]
        else sset st.store r (.fish (bc + 1)) := by
  unfold processFish
  split <;>
  · dsimp only
    rw [hsg]
    dsimp only
    split <;> rfl

/-- The store processShark leaves, in closed form. -/
theorem processShark_store_eq (curr : Cells) (n : Nat) (sb se : Int) (rng : RFun)
    (r : Ref) (x y : Nat) (st : St) (bc en : Int)
    (hsg : sget st.store r = some (.shark bc en)) :
    (processShark curr n sb se rng r x y st).store
      = if en - 1 ≤ 0 then sset st.store r (.shark bc (en - 1))
        else
          if sb ≤ bc + 1 then
            sset st.store r (.shark 0
              (if (findNearestFish curr (sset st.store r (.shark bc (en - 1))) n
                  (rng x y 0) x y).isSome then se else en - 1))
              ++ [EntityVal.shark 0 se]
          else
            sset st.store r (.shark (bc + 1)
              (if (findNearestFish curr (sset st.store r (.shark bc (en - 1))) n
                  (rng x y 0) x y).isSome then se else en - 1)) := by
  have hr : r < st.store.length := lt_of_sget_eq_some _ _ _ hsg
  have hr1 : r < (sset st.store r (.shark bc (en - 1))).length := by
    rw [length_sset]; exact hr
  unfold processShark
  rw [hsg]
  dsimp only
  split
  · rfl
  · rcases hff : findNearestFish curr (sset st.store r (.shark bc (en - 1))) n
        (rng x y 0) x y with _ | ⟨nx, ny⟩
    · rcases hfe : findEmptyAdjacent curr n (rng x y 1) x y with _ | ⟨mx, my⟩ <;>
      · dsimp only
        rw [sget_sset_self _ _ _ hr]
        dsimp only
        split
        · simp only [Option.isSome_none, Bool.false_eq_true, if_false]
          dsimp only [alloc]
          rw [sset_sset]
        · simp only [Option.isSome_none, Bool.false_eq_true, if_false]
          rw [sset_sset]
    · dsimp only
      rw [sget_sset_self _ _ _ hr1]
      dsimp only
      split
      · simp only [Option.isSome_some, if_true]
        dsimp only [alloc]
        rw [sset_sset, sset_sset]
      · simp only [Option.isSome_some, if_true]
        rw [sset_sset, sset_sset]

theorem sget_sset_append_self (s : Store) (r : Ref) (v w : EntityVal)
    (hr : r < s.length) :
    sget (sset s r v ++ [w]) r = some v := by
  rw [sget_append_lt _ _ r (by rw [length_sset]; exact hr), sget_sset_self _ _ _ hr]

theorem sget_sset_append_len (s : Store) (r : Ref) (v w : EntityVal) :
    sget (sset s r v ++ [w]) s.length = some w := by
  have h := sget_alloc_self (sset s r v) w
  rw [length_sset] at h
  exact h

/-- A write denoted by the store it will be read through: target cell
and the entity value behind the written pointer. -/
def dnote (s : Store) (w : Write) : Nat × Nat × Option EntityVal :=
  (w.1, w.2.1, sget s w.2.2)

/-- The value a cell of a grid denotes: the entity struct behind its
pointer. -/
def denote (c : Cells) (s : Store) (x y : Nat) : Option EntityVal :=
  (getCell c x y).bind (sget s)

/-- A next-grid write with its payload spelled out as an entity value. -/
abbrev DWrite := Nat × Nat × EntityVal

/-- Injection of a value-carrying write into the denoted-write shape. -/
def dinj (w : DWrite) : Nat × Nat × Option EntityVal := (w.1, w.2.1, some w.2.2)

/-- The denoted writes of one fish, computed from its start-of-chronon
counter: where the parent lands and with which counter, and the
offspring left behind on breeding. -/
def fishDen (curr : Cells) (n : Nat) (fb : Int) (rng : RFun) (x y : Nat)
    (bc : Int) : List DWrite :=
  let tgt := match findEmptyAdjacent curr n (rng x y 0) x y with
    | some q => q
    | none => (x, y)
  if fb ≤ bc + 1 then [(tgt.1, tgt.2, .fish 0), (x, y, .fish 0)]
  else [(tgt.1, tgt.2, .fish (bc + 1))]

/-- The denoted writes of one shark, computed from its start-of-chronon
counter and energy; `s` is the store its fish scan reads (only the
dynamic types behind the grid pointers matter there). -/
def sharkDen (curr : Cells) (s : Store) (n : Nat) (sb se : Int) (rng : RFun)
    (x y : Nat) (bc en : Int) : List DWrite :=
  if en - 1 ≤ 0 then []
  else
    let ate := findNearestFish curr s n (rng x y 0) x y
    let tgt := match ate with
      | some q => q
      | none =>
          match findEmptyAdjacent curr n (rng x y 1) x y with
          | some q => q
          | none => (x, y)
    let en1 := if ate.isSome then se else en - 1
    if sb ≤ bc + 1 then [(tgt.1, tgt.2, .shark 0 en1), (x, y, .shark 0 se)]
    else [(tgt.1, tgt.2, .shark (bc + 1) en1)]

/-- One fish's writes, denoted through the store its dispatch leaves,
are its denoted writes computed from its start counter. -/
theorem fishWrites_dnote (curr : Cells) (n : Nat) (fb : Int) (rng : RFun)
    (r : Ref) (x y : Nat) (st : St) (bc : Int)
    (hsg : sget st.store r = some (.fish bc)) :
    (fishWrites curr n fb rng r x y st).map
        (dnote (processFish curr n fb rng r x y st).store)
      = (fishDen curr n fb rng x y bc).map dinj := by
  have hr : r < st.store.length := lt_of_sget_eq_some _ _ _ hsg
  rw [processFish_store_eq curr n fb rng r x y st bc hsg]
  unfold fishWrites fishDen
  rw [hsg]
  dsimp only
  by_cases hb : fb ≤ bc + 1
  · rw [if_pos hb, if_pos hb, if_pos hb]
    rcases hfe : findEmptyAdjacent curr n (rng x y 0) x y with _ | ⟨nx, ny⟩ <;>
    · simp only [List.map_cons, List.map_nil, dnote, dinj]
      rw [sget_sset_append_self _ _ _ _ hr, sget_sset_append_len]
  · rw [if_neg hb, if_neg hb, if_neg hb]
    rcases hfe : findEmptyAdjacent curr n (rng x y 0) x y with _ | ⟨nx, ny⟩ <;>
    · simp only [List.map_cons, List.map_nil, dnote, dinj]
      rw [sget_sset_self _ _ _ hr]

/-- One shark's writes, denoted through the store its dispatch leaves,
are its denoted writes computed from its start counter and energy. -/
theorem sharkWrites_dnote (curr : Cells) (n : Nat) (sb se : Int) (rng : RFun)
    (r : Ref) (x y : Nat) (st : St) (bc en : Int)
    (hsg : sget st.store r = some (.shark bc en)) :
    (sharkWrites curr n sb se rng r x y st).map
        (dnote (processShark curr n sb se rng r x y st).store)
      = (sharkDen curr (sset st.store r (.shark bc (en - 1))) n sb se rng
          x y bc en).map dinj := by
  have hr : r < st.store.length := lt_of_sget_eq_some _ _ _ hsg
  rw [processShark_store_eq curr n sb se rng r x y st bc en hsg]
  unfold sharkWrites sharkDen
  rw [hsg]
  dsimp only
  by_cases hd : en - 1 ≤ 0
  · rw [if_pos hd, if_pos hd, if_pos hd]
    rfl
  · rw [if_neg hd, if_neg hd, if_neg hd]
    rcases hff : findNearestFish curr (sset st.store r (.shark bc (en - 1))) n
        (rng x y 0) x y with _ | ⟨nx, ny⟩
    · simp only [Option.isSome_none, Bool.false_eq_true, if_false]
      by_cases hbb : sb ≤ bc + 1
      · rcases hfe : findEmptyAdjacent curr n (rng x y 1) x y with _ | ⟨mx, my⟩ <;>
        · simp only [if_pos hbb, List.map_cons, List.map_nil, dnote, dinj]
          rw [sget_sset_append_self _ _ _ _ hr, sget_sset_append_len]
      · rcases hfe : findEmptyAdjacent curr n (rng x y 1) x y with _ | ⟨mx, my⟩ <;>
        · simp only [if_neg hbb, List.map_cons, List.map_nil, dnote, dinj]
          rw [sget_sset_self _ _ _ hr]
    · simp only [Option.isSome_some, if_true]
      by_cases hbb : sb ≤ bc + 1
      · simp only [if_pos hbb, List.map_cons, List.map_nil, dnote, dinj]
        rw [sget_sset_append_self _ _ _ _ hr, sget_sset_append_len]
      · simp only [if_neg hbb, List.map_cons, List.map_nil, dnote, dinj]
        rw [sget_sset_self _ _ _ hr]

/-- The denoted writes of one cell's dispatch, computed from the
start-of-chronon store. -/
def cellDenWrites (curr : Cells) (store0 : Store) (n : Nat) (fb sb se : Int)
    (rng : RFun) (p : Nat × Nat) : List DWrite :=
  match getCell curr p.1 p.2 with
  | some r =>
      match sget store0 r with
      | some (.fish bc) => fishDen curr n fb rng p.1 p.2 bc
      | some (.shark bc en) => sharkDen curr store0 n sb se rng p.1 p.2 bc en
      | none => []
  | none => []

/-- The fish fragment of a cell's denoted writes. -/
def fishCellDenWrites (curr : Cells) (store0 : Store) (n : Nat) (fb : Int)
    (rng : RFun) (p : Nat × Nat) : List DWrite :=
  match getCell curr p.1 p.2 with
  | some r =>
      match sget store0 r with
      | some (.fish bc) => fishDen curr n fb rng p.1 p.2 bc
      | _ => []
  | none => []

/-- The shark fragment of a cell's denoted writes. -/
def sharkCellDenWrites (curr : Cells) (store0 : Store) (n : Nat) (sb se : Int)
    (rng : RFun) (p : Nat × Nat) : List DWrite :=
  match getCell curr p.1 p.2 with
  | some r =>
      match sget store0 r with
      | some (.shark bc en) => sharkDen curr store0 n sb se rng p.1 p.2 bc en
      | _ => []
  | none => []

/-- Only the fish scan of sharkDen reads the store. -/
theorem sharkDen_congr (curr : Cells) (s s' : Store) (n : Nat) (sb se : Int)
    (rng : RFun) (x y : Nat) (bc en : Int)
    (h : findNearestFish curr s n (rng x y 0) x y
        = findNearestFish curr s' n (rng x y 0) x y) :
    sharkDen curr s n sb se rng x y bc en
      = sharkDen curr s' n sb se rng x y bc en := by
  unfold sharkDen
  rw [h]

/-- A scan leaves every reference alone that none of its cells holds. -/
theorem processCells_store_stable (curr : Cells) (n : Nat) (fb sb se : Int)
    (rng : RFun) :
    ∀ (l : List (Nat × Nat)) (st : St) (r' : Ref), r' < st.store.length →
      (∀ q ∈ l, getCell curr q.1 q.2 ≠ some r') →
      sget ((l.foldl (processCell curr n fb sb se rng) st)).store r'
        = sget st.store r' := by
  intro l
  induction l with
  | nil => intro st r' _ _; rfl
  | cons p ps ih =>
      intro st r' hlt hne
      rw [List.foldl_cons]
      rw [ih _ r' (lt_of_lt_of_le hlt (processCell_store_len curr n fb sb se rng st p))
        (fun q hq => hne q (by simp [hq]))]
      exact processCell_store_stable curr n fb sb se rng st p r' hlt (hne p (by simp))

/-- A kind extension keeps the observable dynamic type of every
resolving reference of the smaller store. -/
theorem optKind_of_kindExt (s s' : Store) (h : KindExt s s') (r : Ref)
    (hr : r < s.length) : optKind (sget s' r) = optKind (sget s r) := by
  obtain ⟨v, hv⟩ : ∃ v, sget s r = some v :=
    ⟨s.get ⟨r, hr⟩, by rw [sget, List.get?_eq_get hr]⟩
  obtain ⟨v2, hv2, hk⟩ := h.2 r v hv
  rw [hv, hv2]
  unfold optKind
  simp [hk]

/-- Every write of one fish's dispatch carries the fish's own reference
or the freshly allocated one. -/
theorem fishWrites_refs (curr : Cells) (n : Nat) (fb : Int) (rng : RFun)
    (r : Ref) (x y : Nat) (st : St) :
    ∀ w ∈ fishWrites curr n fb rng r x y st,
      w.2.2 = r ∨ w.2.2 = st.store.length := by
  unfold fishWrites
  rcases hfe : findEmptyAdjacent curr n (rng x y 0) x y with _ | ⟨nx, ny⟩ <;>
  · dsimp only
    split
    · split
      · intro w hw
        simp at hw
        rcases hw with hw | hw <;> subst hw
        · exact Or.inl rfl
        · exact Or.inr rfl
      · intro w hw
        simp at hw
        subst hw
        exact Or.inl rfl
    · intro w hw
      simp at hw
      subst hw
      exact Or.inl rfl

/-- Every write of one shark's dispatch carries the shark's own
reference or the freshly allocated one. -/
theorem sharkWrites_refs (curr : Cells) (n : Nat) (sb se : Int) (rng : RFun)
    (r : Ref) (x y : Nat) (st : St) :
    ∀ w ∈ sharkWrites curr n sb se rng r x y st,
      w.2.2 = r ∨ w.2.2 = st.store.length := by
  unfold sharkWrites
  split
  · dsimp only
    split
    · intro w hw
      simp at hw
    · rcases hff : findNearestFish curr (sset st.store r _) n (rng x y 0) x y
        with _ | ⟨nx, ny⟩
      · rcases hfe : findEmptyAdjacent curr n (rng x y 1) x y with _ | ⟨mx, my⟩ <;>
        · dsimp only
          split
          · intro w hw
            simp at hw
            rcases hw with hw | hw <;> subst hw
            · exact Or.inl rfl
            · exact Or.inr rfl
          · intro w hw
            simp at hw
            subst hw
            exact Or.inl rfl
      · dsimp only
        split
        · intro w hw
          simp at hw
          rcases hw with hw | hw <;> subst hw
          · exact Or.inl rfl
          · exact Or.inr rfl
        · intro w hw
          simp at hw
          subst hw
          exact Or.inl rfl
  · intro w hw
    simp at hw

/-- Every write of one cell's dispatch carries the cell's own reference
or the freshly allocated one. -/
theorem cellWrites_refs (curr : Cells) (n : Nat) (fb sb se : Int) (rng : RFun)
    (st : St) (p : Nat × Nat) :
    ∀ w ∈ cellWrites curr n fb sb se rng st p,
      getCell curr p.1 p.2 = some w.2.2 ∨ w.2.2 = st.store.length := by
  unfold cellWrites
  rcases hgc : getCell curr p.1 p.2 with _ | r
  · intro w hw
    simp at hw
  · dsimp only
    rcases hsg : sget st.store r with _ | v
    · intro w hw
      simp at hw
    · rcases v with bc | ⟨bc, en⟩ <;>
      · intro w hw
        dsimp only at hw
        rcases (by
          first
          | exact fishWrites_refs curr n fb rng r p.1 p.2 st w hw
          | exact sharkWrites_refs curr n sb se rng r p.1 p.2 st w hw
          : w.2.2 = r ∨ w.2.2 = List.length st.store) with hw2 | hw2
        · rw [hw2]
          exact Or.inl rfl
        · exact Or.inr hw2

/-- One cell's writes, denoted through the store its dispatch leaves,
are its denoted writes computed from the start-of-chronon store,
provided the cell's entity still carries its start value and every grid
pointer still has its start dynamic type. -/
theorem cellWrites_dnote (curr : Cells) (store0 : Store) (n : Nat)
    (fb sb se : Int) (rng : RFun) (st : St) (p : Nat × Nat)
    (hkinds : ∀ a b r, getCell curr a b = some r →
        optKind (sget st.store r) = optKind (sget store0 r))
    (hself : ∀ r, getCell curr p.1 p.2 = some r → sget st.store r = sget store0 r) :
    (cellWrites curr n fb sb se rng st p).map
        (dnote (processCell curr n fb sb se rng st p).store)
      = (cellDenWrites curr store0 n fb sb se rng p).map dinj := by
  unfold cellWrites cellDenWrites processCell
  rcases hgc : getCell curr p.1 p.2 with _ | r
  · rfl
  · dsimp only
    have hs := hself r hgc
    rcases hsg0 : sget store0 r with _ | v
    · rw [hsg0] at hs
      rw [hs]
      rfl
    · rw [hsg0] at hs
      rcases v with bc | ⟨bc, en⟩
      · rw [hs]
        dsimp only
        exact fishWrites_dnote curr n fb rng r p.1 p.2 st bc hs
      · rw [hs]
        dsimp only
        rw [sharkWrites_dnote curr n sb se rng r p.1 p.2 st bc en hs]
        have hrlt : r < st.store.length := lt_of_sget_eq_some _ _ _ hs
        have hcong : ∀ a b r2, getCell curr a b = some r2 →
            optKind (sget (sset st.store r (EntityVal.shark bc (en - 1))) r2)
              = optKind (sget store0 r2) := by
          intro a b r2 hab
          by_cases hrr : r = r2
          · subst hrr
            rw [sget_sset_self _ _ _ hrlt, hsg0]
            rfl
          · rw [sget_sset_ne _ _ _ _ hrr]
            exact hkinds a b r2 hab
        rw [sharkDen_congr curr (sset st.store r (EntityVal.shark bc (en - 1)))
          store0 n sb se rng p.1 p.2 bc en
          (findNearestFish_congr curr _ store0 n p.1 p.2 hcong _)]

/-- The writes of a whole scan, denoted through the final store, are the
scan's denoted writes computed from the start-of-chronon store. -/
theorem runWrites_dnote (curr : Cells) (store0 : Store) (n : Nat)
    (fb sb se : Int) (rng : RFun) (hn : 1 ≤ n)
    (hvalidAll : ∀ a b r, getCell curr a b = some r → r < store0.length) :
    ∀ (l : List (Nat × Nat)) (st : St),
      (∀ p ∈ l, p.1 < n ∧ p.2 < n) →
      store0.length ≤ st.store.length →
      (gridRefsOf curr l).Nodup →
      (∀ a b r, getCell curr a b = some r →
          optKind (sget st.store r) = optKind (sget store0 r)) →
      (∀ p ∈ l, ∀ r, getCell curr p.1 p.2 = some r →
          sget st.store r = sget store0 r) →
      (runWrites curr n fb sb se rng l st).map
          (dnote ((l.foldl (processCell curr n fb sb se rng) st)).store)
        = (l.flatMap (cellDenWrites curr store0 n fb sb se rng)).map dinj := by
  intro l
  induction l with
  | nil => intro st _ _ _ _ _; rfl
  | cons p ps ih =>
      intro st hb hlen hnd hkinds hself
      rw [runWrites, List.foldl_cons, List.flatMap_cons, List.map_append,
        List.map_append]
      congr 1
      · have hA : ∀ w ∈ cellWrites curr n fb sb se rng st p,
            sget ((ps.foldl (processCell curr n fb sb se rng)
                (processCell curr n fb sb se rng st p))).store w.2.2
              = sget (processCell curr n fb sb se rng st p).store w.2.2 := by
          intro w hw
          apply processCells_store_stable
          · exact (cellWrites_facts curr n fb sb se rng st p hn
              (hb p (by simp)).1 (hb p (by simp)).2 w hw).2.2
          · intro q hq hcon
            rcases cellWrites_refs curr n fb sb se rng st p w hw with hwr | hwr
            · rw [gridRefsOf_cons_some curr p ps w.2.2 hwr] at hnd
              exact (List.nodup_cons.mp hnd).1
                (mem_gridRefsOf curr ps q w.2.2 hq hcon)
            · have hlt := hvalidAll q.1 q.2 w.2.2 hcon
              rw [hwr] at hlt
              exact absurd hlt (not_lt.mpr hlen)
        have hmap : (cellWrites curr n fb sb se rng st p).map
            (dnote ((ps.foldl (processCell curr n fb sb se rng)
              (processCell curr n fb sb se rng st p))).store)
            = (cellWrites curr n fb sb se rng st p).map
                (dnote (processCell curr n fb sb se rng st p).store) := by
          apply List.map_congr_left
          intro w hw
          show (w.1, w.2.1, _) = (w.1, w.2.1, _)
          rw [hA w hw]
        rw [hmap]
        exact cellWrites_dnote curr store0 n fb sb se rng st p hkinds
          (fun r hr => hself p (by simp) r hr)
      · apply ih
        · exact fun q hq => hb q (by simp [hq])
        · exact le_trans hlen (processCell_store_len curr n fb sb se rng st p)
        · rcases hgc : getCell curr p.1 p.2 with _ | r
          · rw [gridRefsOf_cons_none curr p ps hgc] at hnd
            exact hnd
          · rw [gridRefsOf_cons_some curr p ps r hgc] at hnd
            exact (List.nodup_cons.mp hnd).2
        · intro a b r hab
          rw [optKind_of_kindExt st.store _
            (processCell_kindExt curr n fb sb se rng st p) r
            (lt_of_lt_of_le (hvalidAll a b r hab) hlen)]
          exact hkinds a b r hab
        · intro q hq r hr
          rw [processCell_store_stable curr n fb sb se rng st p r
            (lt_of_lt_of_le (hvalidAll q.1 q.2 r hr) hlen)
            (by
              rcases hgc : getCell curr p.1 p.2 with _ | r2
              · intro hcon
                exact Option.noConfusion hcon
              · intro hcon
                have hrr : r2 = r := Option.some.inj hcon
                subst hrr
                rw [gridRefsOf_cons_some curr p ps r2 hgc] at hnd
                exact (List.nodup_cons.mp hnd).1
                  (mem_gridRefsOf curr ps q r2 hq hr))]
          exact hself q (by simp [hq]) r hr

/-- The body of moveFish's scan (src/wat-or/main/movement.go lines
117-133): dispatch only the fish of the current cell. -/
def fishStep (curr : Cells) (n : Nat) (fishBreed : Int) (rng : RFun)
    (st : St) (p : Nat × Nat) : St :=
  match getCell curr p.1 p.2 with
  | some r =>
      match sget st.store r with
      | some (.fish _) => processFish curr n fishBreed rng r p.1 p.2 st
      | _ => st
  | none => st

theorem moveFish_eq (curr : Cells) (n : Nat) (fb : Int) (rng : RFun) (st : St) :
    moveFish curr n fb rng st
      = (sectionPairs n 0 n).foldl (fishStep curr n fb rng) st := rfl

/-- The next-grid writes of the fish pass at one cell. -/
def fishCellWrites (curr : Cells) (n : Nat) (fb : Int) (rng : RFun)
    (st : St) (p : Nat × Nat) : List Write :=
  match getCell curr p.1 p.2 with
  | some r =>
      match sget st.store r with
      | some (.fish _) => fishWrites curr n fb rng r p.1 p.2 st
      | _ => []
  | none => []

/-- The next-grid writes of the whole fish pass, in scan order. -/
def fishRunWrites (curr : Cells) (n : Nat) (fb : Int) (rng : RFun) :
    List (Nat × Nat) → St → List Write
  | [], _ => []
  | p :: ps, st =>
      fishCellWrites curr n fb rng st p
        ++ fishRunWrites curr n fb rng ps (fishStep curr n fb rng st p)

theorem fishStep_next (curr : Cells) (n : Nat) (fb : Int) (rng : RFun)
    (st : St) (p : Nat × Nat) :
    (fishStep curr n fb rng st p).next
      = applyWrites st.next (fishCellWrites curr n fb rng st p) := by
  unfold fishStep fishCellWrites
  split
  · split
    · exact processFish_next curr n fb rng _ p.1 p.2 st
    · rfl
  · rfl

theorem fishFold_next (curr : Cells) (n : Nat) (fb : Int) (rng : RFun) :
    ∀ (l : List (Nat × Nat)) (st : St),
      ((l.foldl (fishStep curr n fb rng) st)).next
        = applyWrites st.next (fishRunWrites curr n fb rng l st) := by
  intro l
  induction l with
  | nil => intro st; rfl
  | cons p ps ih =>
      intro st
      rw [List.foldl_cons, ih, fishRunWrites, applyWrites_append,
        fishStep_next curr n fb rng st p]

theorem fishStep_kindExt (curr : Cells) (n : Nat) (fb : Int) (rng : RFun)
    (st : St) (p : Nat × Nat) :
    KindExt st.store (fishStep curr n fb rng st p).store := by
  unfold fishStep
  split
  · split
    · exact processFish_kindExt curr n fb rng _ p.1 p.2 st
    · exact KindExt_refl _
  · exact KindExt_refl _

theorem fishStep_store_len (curr : Cells) (n : Nat) (fb : Int) (rng : RFun)
    (st : St) (p : Nat × Nat) :
    st.store.length ≤ (fishStep curr n fb rng st p).store.length :=
  (fishStep_kindExt curr n fb rng st p).1

theorem fishStep_store_stable (curr : Cells) (n : Nat) (fb : Int) (rng : RFun)
    (st : St) (p : Nat × Nat) (r' : Ref)
    (hlt : r' < st.store.length) (hne : getCell curr p.1 p.2 ≠ some r') :
    sget (fishStep curr n fb rng st p).store r' = sget st.store r' := by
  unfold fishStep
  split
  · rename_i r heq
    split
    · exact processFish_store_stable curr n fb rng r p.1 p.2 st r' hlt
        (fun h => hne (h ▸ heq))
    · rfl
  · rfl

theorem fishFold_store_stable (curr : Cells) (n : Nat) (fb : Int) (rng : RFun) :
    ∀ (l : List (Nat × Nat)) (st : St) (r' : Ref), r' < st.store.length →
      (∀ q ∈ l, getCell curr q.1 q.2 ≠ some r') →
      sget ((l.foldl (fishStep curr n fb rng) st)).store r' = sget st.store r' := by
  intro l
  induction l with
  | nil => intro st r' _ _; rfl
  | cons p ps ih =>
      intro st r' hlt hne
      rw [List.foldl_cons]
      rw [ih _ r' (lt_of_lt_of_le hlt (fishStep_store_len curr n fb rng st p))
        (fun q hq => hne q (by simp [hq]))]
      exact fishStep_store_stable curr n fb rng st p r' hlt (hne p (by simp))

/-- The fish pass never touches an entity that is a shark. -/
theorem fishFold_shark_stable (curr : Cells) (n : Nat) (fb : Int) (rng : RFun) :
    ∀ (l : List (Nat × Nat)) (st : St) (r' : Ref) (bc en : Int),
      sget st.store r' = some (.shark bc en) →
      sget ((l.foldl (fishStep curr n fb rng) st)).store r'
        = some (.shark bc en) := by
  intro l
  induction l with
  | nil => intro st r' bc en hv; exact hv
  | cons p ps ih =>
      intro st r' bc en hv
      rw [List.foldl_cons]
      apply ih
      unfold fishStep
      rcases hgc : getCell curr p.1 p.2 with _ | r
      · exact hv
      · dsimp only
        rcases hsg : sget st.store r with _ | v
        · exact hv
        · rcases v with bc2 | ⟨bc2, en2⟩
          · dsimp only
            rw [processFish_store_stable curr n fb rng r p.1 p.2 st r'
              (lt_of_sget_eq_some _ _ _ hv)
              (fun hrr => by
                rw [hrr] at hsg
                have hcon := hv.symm.trans hsg
                exact EntityVal.noConfusion (Option.some.inj hcon))]
            exact hv
          · exact hv

theorem fishCellWrites_facts (curr : Cells) (n : Nat) (fb : Int) (rng : RFun)
    (st : St) (p : Nat × Nat) (hn : 1 ≤ n) (hx : p.1 < n) (hy : p.2 < n) :
    ∀ w ∈ fishCellWrites curr n fb rng st p,
      w.1 < n ∧ w.2.1 < n ∧ w.2.2 < (fishStep curr n fb rng st p).store.length := by
  unfold fishCellWrites fishStep
  split
  · rename_i r heq
    split
    · rename_i bc heq2
      exact processFish_writes_facts curr n fb rng r p.1 p.2 st hn hx hy
        (lt_of_sget_eq_some _ _ _ heq2)
    · intro w hw; simp at hw
  · intro w hw; simp at hw

theorem fishCellWrites_refs (curr : Cells) (n : Nat) (fb : Int) (rng : RFun)
    (st : St) (p : Nat × Nat) :
    ∀ w ∈ fishCellWrites curr n fb rng st p,
      getCell curr p.1 p.2 = some w.2.2 ∨ w.2.2 = st.store.length := by
  unfold fishCellWrites
  rcases hgc : getCell curr p.1 p.2 with _ | r
  · intro w hw; simp at hw
  · dsimp only
    rcases hsg : sget st.store r with _ | v
    · intro w hw; simp at hw
    · rcases v with bc | ⟨bc, en⟩
      · intro w hw
        dsimp only at hw
        rcases fishWrites_refs curr n fb rng r p.1 p.2 st w hw with hw2 | hw2
        · rw [hw2]
          exact Or.inl rfl
        · exact Or.inr hw2
      · intro w hw; simp at hw

theorem fishCellWrites_dnote (curr : Cells) (store0 : Store) (n : Nat)
    (fb : Int) (rng : RFun) (st : St) (p : Nat × Nat)
    (hself : ∀ r, getCell curr p.1 p.2 = some r → sget st.store r = sget store0 r) :
    (fishCellWrites curr n fb rng st p).map
        (dnote (fishStep curr n fb rng st p).store)
      = (fishCellDenWrites curr store0 n fb rng p).map dinj := by
  unfold fishCellWrites fishCellDenWrites fishStep
  rcases hgc : getCell curr p.1 p.2 with _ | r
  · rfl
  · dsimp only
    have hs := hself r hgc
    rcases hsg0 : sget store0 r with _ | v
    · rw [hsg0] at hs
      rw [hs]
      rfl
    · rw [hsg0] at hs
      rcases v with bc | ⟨bc, en⟩
      · rw [hs]
        dsimp only
        exact fishWrites_dnote curr n fb rng r p.1 p.2 st bc hs
      · rw [hs]
        rfl

/-- The fish pass's writes, denoted through the store the pass leaves,
are the fish fragments of the scan's denoted writes. -/
theorem fishRunWrites_dnote (curr : Cells) (store0 : Store) (n : Nat)
    (fb : Int) (rng : RFun) (hn : 1 ≤ n)
    (hvalidAll : ∀ a b r, getCell curr a b = some r → r < store0.length) :
    ∀ (l : List (Nat × Nat)) (st : St),
      (∀ p ∈ l, p.1 < n ∧ p.2 < n) →
      store0.length ≤ st.store.length →
      (gridRefsOf curr l).Nodup →
      (∀ p ∈ l, ∀ r, getCell curr p.1 p.2 = some r →
          sget st.store r = sget store0 r) →
      (fishRunWrites curr n fb rng l st).map
          (dnote ((l.foldl (fishStep curr n fb rng) st)).store)
        = (l.flatMap (fishCellDenWrites curr store0 n fb rng)).map dinj := by
  intro l
  induction l with
  | nil => intro st _ _ _ _; rfl
  | cons p ps ih =>
      intro st hb hlen hnd hself
      rw [fishRunWrites, List.foldl_cons, List.flatMap_cons, List.map_append,
        List.map_append]
      congr 1
      · have hA : ∀ w ∈ fishCellWrites curr n fb rng st p,
            sget ((ps.foldl (fishStep curr n fb rng)
                (fishStep curr n fb rng st p))).store w.2.2
              = sget (fishStep curr n fb rng st p).store w.2.2 := by
          intro w hw
          apply fishFold_store_stable
          · exact (fishCellWrites_facts curr n fb rng st p hn
              (hb p (by simp)).1 (hb p (by simp)).2 w hw).2.2
          · intro q hq hcon
            rcases fishCellWrites_refs curr n fb rng st p w hw with hwr | hwr
            · rw [gridRefsOf_cons_some curr p ps w.2.2 hwr] at hnd
              exact (List.nodup_cons.mp hnd).1
                (mem_gridRefsOf curr ps q w.2.2 hq hcon)
            · have hlt := hvalidAll q.1 q.2 w.2.2 hcon
              rw [hwr] at hlt
              exact absurd hlt (not_lt.mpr hlen)
        have hmap : (fishCellWrites curr n fb rng st p).map
            (dnote ((ps.foldl (fishStep curr n fb rng)
              (fishStep curr n fb rng st p))).store)
            = (fishCellWrites curr n fb rng st p).map
                (dnote (fishStep curr n fb rng st p).store) := by
          apply List.map_congr_left
          intro w hw
          show (w.1, w.2.1, _) = (w.1, w.2.1, _)
          rw [hA w hw]
        rw [hmap]
        exact fishCellWrites_dnote curr store0 n fb rng st p
          (fun r hr => hself p (by simp) r hr)
      · apply ih
        · exact fun q hq => hb q (by simp [hq])
        · exact le_trans hlen (fishStep_store_len curr n fb rng st p)
        · rcases hgc : getCell curr p.1 p.2 with _ | r
          · rw [gridRefsOf_cons_none curr p ps hgc] at hnd
            exact hnd
          · rw [gridRefsOf_cons_some curr p ps r hgc] at hnd
            exact (List.nodup_cons.mp hnd).2
        · intro q hq r hr
          rw [fishStep_store_stable curr n fb rng st p r
            (lt_of_lt_of_le (hvalidAll q.1 q.2 r hr) hlen)
            (by
              rcases hgc : getCell curr p.1 p.2 with _ | r2
              · intro hcon
                exact Option.noConfusion hcon
              · intro hcon
                have hrr : r2 = r := Option.some.inj hcon
                subst hrr
                rw [gridRefsOf_cons_some curr p ps r2 hgc] at hnd
                exact (List.nodup_cons.mp hnd).1
                  (mem_gridRefsOf curr ps q r2 hq hr))]
          exact hself q (by simp [hq]) r hr

/-- The body of moveSharksConcurrent's scan: dispatch only the sharks
of the current cell, emitting moves on the channel. -/
def sharkStep (curr : Cells) (n : Nat) (sharkBreed starveEnergy : Int) (rng : RFun)
    (st : BufSt) (p : Nat × Nat) : BufSt :=
  match getCell curr p.1 p.2 with
  | some r =>
      match sget st.store r with
      | some (.shark _ _) =>
          processSharkBuf curr n sharkBreed starveEnergy rng r p.1 p.2 st
      | _ => st
  | none => st

theorem moveSharksConcurrent_eq (curr : Cells) (n : Nat) (sb se : Int)
    (rng : RFun) (bs : BufSt) :
    moveSharksConcurrent curr n sb se rng bs
      = (sectionPairs n 0 n).foldl (sharkStep curr n sb se rng) bs := rfl

/-- The buffered dispatch mutates the store exactly as the direct one
and emits exactly the direct dispatch's writes, in order. -/
theorem processSharkBuf_spec (curr : Cells) (n : Nat) (sb se : Int) (rng : RFun)
    (r : Ref) (x y : Nat) (bs : BufSt) :
    (processSharkBuf curr n sb se rng r x y bs).store
        = (processShark curr n sb se rng r x y { store := bs.store, next := [] }).store
      ∧ (processSharkBuf curr n sb se rng r x y bs).buf
        = bs.buf ++ sharkWrites curr n sb se rng r x y { store := bs.store, next := [] } := by
  unfold processSharkBuf processShark sharkWrites
  rcases heq : sget bs.store r with _ | v
  · exact ⟨rfl, (List.append_nil _).symm⟩
  · rcases v with bc | ⟨bc, en⟩
    · exact ⟨rfl, (List.append_nil _).symm⟩
    · dsimp only
      split
      · exact ⟨rfl, (List.append_nil _).symm⟩
      · rcases hff : findNearestFish curr (sset bs.store r (.shark bc (en - 1))) n
            (rng x y 0) x y with _ | ⟨nx, ny⟩
        · rcases hfe : findEmptyAdjacent curr n (rng x y 1) x y with _ | ⟨mx, my⟩ <;>
          · dsimp only
            rw [sget_sset_self _ _ _ (lt_of_sget_eq_some _ _ _ heq)]
            dsimp only
            split
            · constructor <;> simp [alloc, length_sset]
            · constructor <;> simp
        · dsimp only
          rw [sget_sset_self _ _ _
            (by rw [length_sset]; exact lt_of_sget_eq_some _ _ _ heq)]
          dsimp only
          split
          · constructor <;> simp [alloc, length_sset]
          · constructor <;> simp

/-- The store evolution of the shark pass, cell by cell. -/
def sharkStepS (curr : Cells) (n : Nat) (sb se : Int) (rng : RFun)
    (store : Store) (p : Nat × Nat) : Store :=
  match getCell curr p.1 p.2 with
  | some r =>
      match sget store r with
      | some (.shark _ _) =>
          (processShark curr n sb se rng r p.1 p.2 { store := store, next := [] }).store
      | _ => store
  | none => store

/-- The buffered writes of the shark pass at one cell. -/
def sharkCellWrites (curr : Cells) (n : Nat) (sb se : Int) (rng : RFun)
    (store : Store) (p : Nat × Nat) : List Write :=
  match getCell curr p.1 p.2 with
  | some r =>
      match sget store r with
      | some (.shark _ _) =>
          sharkWrites curr n sb se rng r p.1 p.2 { store := store, next := [] }
      | _ => []
  | none => []

/-- The buffered writes of the whole shark pass, in emission order. -/
def sharkRunWrites (curr : Cells) (n : Nat) (sb se : Int) (rng : RFun) :
    List (Nat × Nat) → Store → List Write
  | [], _ => []
  | p :: ps, store =>
      sharkCellWrites curr n sb se rng store p
        ++ sharkRunWrites curr n sb se rng ps (sharkStepS curr n sb se rng store p)

theorem sharkStep_spec (curr : Cells) (n : Nat) (sb se : Int) (rng : RFun)
    (bs : BufSt) (p : Nat × Nat) :
    (sharkStep curr n sb se rng bs p).store = sharkStepS curr n sb se rng bs.store p
      ∧ (sharkStep curr n sb se rng bs p).buf
        = bs.buf ++ sharkCellWrites curr n sb se rng bs.store p := by
  unfold sharkStep sharkStepS sharkCellWrites
  split
  · split
    · exact processSharkBuf_spec curr n sb se rng _ p.1 p.2 bs
    · exact ⟨rfl, (List.append_nil _).symm⟩
  · exact ⟨rfl, (List.append_nil _).symm⟩

/-- The shark pass is the store-only fold plus the emitted writes. -/
theorem sharkFold_spec (curr : Cells) (n : Nat) (sb se : Int) (rng : RFun) :
    ∀ (l : List (Nat × Nat)) (bs : BufSt),
      ((l.foldl (sharkStep curr n sb se rng) bs)).store
          = l.foldl (sharkStepS curr n sb se rng) bs.store
        ∧ ((l.foldl (sharkStep curr n sb se rng) bs)).buf
            = bs.buf ++ sharkRunWrites curr n sb se rng l bs.store := by
  intro l
  induction l with
  | nil => intro bs; exact ⟨rfl, (List.append_nil _).symm⟩
  | cons p ps ih =>
      intro bs
      rw [List.foldl_cons, List.foldl_cons, sharkRunWrites]
      obtain ⟨h1, h2⟩ := sharkStep_spec curr n sb se rng bs p
      obtain ⟨ih1, ih2⟩ := ih (sharkStep curr n sb se rng bs p)
      constructor
      · rw [ih1, h1]
      · rw [ih2, h2, h1, List.append_assoc]

theorem sharkStepS_kindExt (curr : Cells) (n : Nat) (sb se : Int) (rng : RFun)
    (store : Store) (p : Nat × Nat) :
    KindExt store (sharkStepS curr n sb se rng store p) := by
  unfold sharkStepS
  split
  · split
    · exact processShark_kindExt curr n sb se rng _ p.1 p.2 { store := store, next := [] }
    · exact KindExt_refl _
  · exact KindExt_refl _

theorem sharkStepS_store_len (curr : Cells) (n : Nat) (sb se : Int) (rng : RFun)
    (store : Store) (p : Nat × Nat) :
    store.length ≤ (sharkStepS curr n sb se rng store p).length :=
  (sharkStepS_kindExt curr n sb se rng store p).1

theorem sharkStepS_store_stable (curr : Cells) (n : Nat) (sb se : Int) (rng : RFun)
    (store : Store) (p : Nat × Nat) (r' : Ref)
    (hlt : r' < store.length) (hne : getCell curr p.1 p.2 ≠ some r') :
    sget (sharkStepS curr n sb se rng store p) r' = sget store r' := by
  unfold sharkStepS
  split
  · rename_i r heq
    split
    · exact processShark_store_stable curr n sb se rng r p.1 p.2
        { store := store, next := [] } r' hlt (fun h => hne (h ▸ heq))
    · rfl
  · rfl

theorem sharkFoldS_store_stable (curr : Cells) (n : Nat) (sb se : Int) (rng : RFun) :
    ∀ (l : List (Nat × Nat)) (store : Store) (r' : Ref), r' < store.length →
      (∀ q ∈ l, getCell curr q.1 q.2 ≠ some r') →
      sget (l.foldl (sharkStepS curr n sb se rng) store) r' = sget store r' := by
  intro l
  induction l with
  | nil => intro store r' _ _; rfl
  | cons p ps ih =>
      intro store r' hlt hne
      rw [List.foldl_cons]
      rw [ih _ r' (lt_of_lt_of_le hlt (sharkStepS_store_len curr n sb se rng store p))
        (fun q hq => hne q (by simp [hq]))]
      exact sharkStepS_store_stable curr n sb se rng store p r' hlt (hne p (by simp))

/-- The shark pass never touches an entity that is a fish. -/
theorem sharkFoldS_fish_stable (curr : Cells) (n : Nat) (sb se : Int) (rng : RFun) :
    ∀ (l : List (Nat × Nat)) (store : Store) (r' : Ref) (bc : Int),
      sget store r' = some (.fish bc) →
      sget (l.foldl (sharkStepS curr n sb se rng) store) r' = some (.fish bc) := by
  intro l
  induction l with
  | nil => intro store r' bc hv; exact hv
  | cons p ps ih =>
      intro store r' bc hv
      rw [List.foldl_cons]
      apply ih
      unfold sharkStepS
      rcases hgc : getCell curr p.1 p.2 with _ | r
      · exact hv
      · dsimp only
        rcases hsg : sget store r with _ | v
        · exact hv
        · rcases v with bc2 | ⟨bc2, en2⟩
          · exact hv
          · dsimp only
            rw [processShark_store_stable curr n sb se rng r p.1 p.2
              { store := store, next := [] } r' (lt_of_sget_eq_some _ _ _ hv)
              (fun hrr => by
                rw [hrr] at hsg
                have hcon := hv.symm.trans hsg
                exact EntityVal.noConfusion (Option.some.inj hcon))]
            exact hv

theorem sharkCellWrites_facts (curr : Cells) (n : Nat) (sb se : Int) (rng : RFun)
    (store : Store) (p : Nat × Nat) (hn : 1 ≤ n) (hx : p.1 < n) (hy : p.2 < n) :
    ∀ w ∈ sharkCellWrites curr n sb se rng store p,
      w.1 < n ∧ w.2.1 < n ∧ w.2.2 < (sharkStepS curr n sb se rng store p).length := by
  unfold sharkCellWrites sharkStepS
  split
  · rename_i r heq
    split
    · rename_i bc en heq2
      exact processShark_writes_facts curr n sb se rng r p.1 p.2
        { store := store, next := [] } hn hx hy (lt_of_sget_eq_some _ _ _ heq2)
    · intro w hw; simp at hw
  · intro w hw; simp at hw

theorem sharkCellWrites_refs (curr : Cells) (n : Nat) (sb se : Int) (rng : RFun)
    (store : Store) (p : Nat × Nat) :
    ∀ w ∈ sharkCellWrites curr n sb se rng store p,
      getCell curr p.1 p.2 = some w.2.2 ∨ w.2.2 = store.length := by
  unfold sharkCellWrites
  rcases hgc : getCell curr p.1 p.2 with _ | r
  · intro w hw; simp at hw
  · dsimp only
    rcases hsg : sget store r with _ | v
    · intro w hw; simp at hw
    · rcases v with bc | ⟨bc, en⟩
      · intro w hw; simp at hw
      · intro w hw
        dsimp only at hw
        rcases sharkWrites_refs curr n sb se rng r p.1 p.2
            { store := store, next := [] } w hw with hw2 | hw2
        · rw [hw2]
          exact Or.inl rfl
        · exact Or.inr hw2

theorem sharkCellWrites_dnote (curr : Cells) (store0 : Store) (n : Nat)
    (sb se : Int) (rng : RFun) (store : Store) (p : Nat × Nat)
    (hkinds : ∀ a b r, getCell curr a b = some r →
        optKind (sget store r) = optKind (sget store0 r))
    (hself : ∀ r, getCell curr p.1 p.2 = some r → ∀ bc en,
        sget store0 r = some (.shark bc en) → sget store r = some (.shark bc en)) :
    (sharkCellWrites curr n sb se rng store p).map
        (dnote (sharkStepS curr n sb se rng store p))
      = (sharkCellDenWrites curr store0 n sb se rng p).map dinj := by
  unfold sharkCellWrites sharkCellDenWrites sharkStepS
  rcases hgc : getCell curr p.1 p.2 with _ | r
  · rfl
  · dsimp only
    have hk := hkinds p.1 p.2 r hgc
    rcases hsg0 : sget store0 r with _ | v
    · rw [hsg0] at hk
      unfold optKind at hk
      rcases hsg : sget store r with _ | w
      · rfl
      · rw [hsg] at hk
        exact Option.noConfusion hk
    · rcases v with bc | ⟨bc, en⟩
      · rw [hsg0] at hk
        unfold optKind at hk
        rcases hsg : sget store r with _ | w
        · rw [hsg] at hk
          exact Option.noConfusion hk
        · rw [hsg] at hk
          rcases w with bc2 | ⟨bc2, en2⟩
          · rfl
          · have hke : ekind (EntityVal.shark bc2 en2) = ekind (EntityVal.fish bc) := by
              simpa using hk
            exact Bool.noConfusion (hke : (false : Bool) = true)
      · have hs := hself r hgc bc en hsg0
        rw [hs]
        dsimp only
        rw [sharkWrites_dnote curr n sb se rng r p.1 p.2
          { store := store, next := [] } bc en hs]
        dsimp only
        have hrlt : r < store.length := lt_of_sget_eq_some _ _ _ hs
        have hcong : ∀ a b r2, getCell curr a b = some r2 →
            optKind (sget (sset store r (EntityVal.shark bc (en - 1))) r2)
              = optKind (sget store0 r2) := by
          intro a b r2 hab
          by_cases hrr : r = r2
          · subst hrr
            rw [sget_sset_self _ _ _ hrlt, hsg0]
            rfl
          · rw [sget_sset_ne _ _ _ _ hrr]
            exact hkinds a b r2 hab
        rw [sharkDen_congr curr (sset store r (EntityVal.shark bc (en - 1)))
          store0 n sb se rng p.1 p.2 bc en
          (findNearestFish_congr curr _ store0 n p.1 p.2 hcong _)]

/-- The shark pass's writes, denoted through the store the pass leaves,
are the shark fragments of the scan's denoted writes. -/
theorem sharkRunWrites_dnote (curr : Cells) (store0 : Store) (n : Nat)
    (sb se : Int) (rng : RFun) (hn : 1 ≤ n)
    (hvalidAll : ∀ a b r, getCell curr a b = some r → r < store0.length) :
    ∀ (l : List (Nat × Nat)) (store : Store),
      (∀ p ∈ l, p.1 < n ∧ p.2 < n) →
      store0.length ≤ store.length →
      (gridRefsOf curr l).Nodup →
      (∀ a b r, getCell curr a b = some r →
          optKind (sget store r) = optKind (sget store0 r)) →
      (∀ p ∈ l, ∀ r, getCell curr p.1 p.2 = some r → ∀ bc en,
          sget store0 r = some (.shark bc en) → sget store r = some (.shark bc en)) →
      (sharkRunWrites curr n sb se rng l store).map
          (dnote (l.foldl (sharkStepS curr n sb se rng) store))
        = (l.flatMap (sharkCellDenWrites curr store0 n sb se rng)).map dinj := by
  intro l
  induction l with
  | nil => intro store _ _ _ _ _; rfl
  | cons p ps ih =>
      intro store hb hlen hnd hkinds hself
      rw [sharkRunWrites, List.foldl_cons, List.flatMap_cons, List.map_append,
        List.map_append]
      congr 1
      · have hA : ∀ w ∈ sharkCellWrites curr n sb se rng store p,
            sget (ps.foldl (sharkStepS curr n sb se rng)
                (sharkStepS curr n sb se rng store p)) w.2.2
              = sget (sharkStepS curr n sb se rng store p) w.2.2 := by
          intro w hw
          apply sharkFoldS_store_stable
          · exact (sharkCellWrites_facts curr n sb se rng store p hn
              (hb p (by simp)).1 (hb p (by simp)).2 w hw).2.2
          · intro q hq hcon
            rcases sharkCellWrites_refs curr n sb se rng store p w hw with hwr | hwr
            · rw [gridRefsOf_cons_some curr p ps w.2.2 hwr] at hnd
              exact (List.nodup_cons.mp hnd).1
                (mem_gridRefsOf curr ps q w.2.2 hq hcon)
            · have hlt := hvalidAll q.1 q.2 w.2.2 hcon
              rw [hwr] at hlt
              exact absurd hlt (not_lt.mpr hlen)
        have hmap : (sharkCellWrites curr n sb se rng store p).map
            (dnote (ps.foldl (sharkStepS curr n sb se rng)
              (sharkStepS curr n sb se rng store p)))
            = (sharkCellWrites curr n sb se rng store p).map
                (dnote (sharkStepS curr n sb se rng store p)) := by
          apply List.map_congr_left
          intro w hw
          show (w.1, w.2.1, _) = (w.1, w.2.1, _)
          rw [hA w hw]
        rw [hmap]
        exact sharkCellWrites_dnote curr store0 n sb se rng store p hkinds
          (fun r hr => hself p (by simp) r hr)
      · apply ih
        · exact fun q hq => hb q (by simp [hq])
        · exact le_trans hlen (sharkStepS_store_len curr n sb se rng store p)
        · rcases hgc : getCell curr p.1 p.2 with _ | r
          · rw [gridRefsOf_cons_none curr p ps hgc] at hnd
            exact hnd
          · rw [gridRefsOf_cons_some curr p ps r hgc] at hnd
            exact (List.nodup_cons.mp hnd).2
        · intro a b r hab
          rw [optKind_of_kindExt store _
            (sharkStepS_kindExt curr n sb se rng store p) r
            (lt_of_lt_of_le (hvalidAll a b r hab) hlen)]
          exact hkinds a b r hab
        · intro q hq r hr bc en hshk
          rw [sharkStepS_store_stable curr n sb se rng store p r
            (lt_of_lt_of_le (hvalidAll q.1 q.2 r hr) hlen)
            (by
              rcases hgc : getCell curr p.1 p.2 with _ | r2
              · intro hcon
                exact Option.noConfusion hcon
              · intro hcon
                have hrr : r2 = r := Option.some.inj hcon
                subst hrr
                rw [gridRefsOf_cons_some curr p ps r2 hgc] at hnd
                exact (List.nodup_cons.mp hnd).1
                  (mem_gridRefsOf curr ps q r2 hq hr))]
          exact hself q (by simp [hq]) r hr bc en hshk

/-- A cell's denoted writes split by kind. -/
theorem cellDenWrites_split (curr : Cells) (store0 : Store) (n : Nat)
    (fb sb se : Int) (rng : RFun) (p : Nat × Nat) :
    cellDenWrites curr store0 n fb sb se rng p
      = fishCellDenWrites curr store0 n fb rng p
        ++ sharkCellDenWrites curr store0 n sb se rng p := by
  unfold cellDenWrites fishCellDenWrites sharkCellDenWrites
  rcases hgc : getCell curr p.1 p.2 with _ | r
  · rfl
  · dsimp only
    rcases hsg : sget store0 r with _ | v
    · rfl
    · rcases v with bc | ⟨bc, en⟩
      · dsimp only
        rw [List.append_nil]
      · rfl

/-- Splitting each element's contribution of a flat map into two passes
permutes the list. -/
theorem flatMap_append_perm {α β : Type} (f g : α → List β) :
    ∀ l : List α,
      (l.flatMap fun a => f a ++ g a).Perm (l.flatMap f ++ l.flatMap g) := by
  intro l
  induction l with
  | nil => exact List.Perm.refl _
  | cons a t ih =>
      rw [List.flatMap_cons, List.flatMap_cons, List.flatMap_cons]
      refine ((ih.append_left (f a ++ g a)).trans ?_)
      rw [List.append_assoc, List.append_assoc]
      apply List.Perm.append_left (f a)
      rw [← List.append_assoc, ← List.append_assoc]
      exact List.perm_append_comm.append_right _

/-- Reading the cell a write list leaves at one coordinate. -/
theorem getCell_applyWrites (n : Nat) :
    ∀ (ws : List Write) (c : Cells) (x y : Nat), wellShaped n c → x < n → y < n →
      (∀ w ∈ ws, w.1 < n ∧ w.2.1 < n) →
      getCell (applyWrites c ws) x y
        = ws.foldl (fun acc w => if w.1 = x ∧ w.2.1 = y then some w.2.2 else acc)
            (getCell c x y) := by
  intro ws
  induction ws with
  | nil => intro c x y _ _ _ _; rfl
  | cons w t ih =>
      intro c x y hshape hx hy hb
      have happ : applyWrites c (w :: t)
          = applyWrites (setCell c w.1 w.2.1 (some w.2.2)) t := rfl
      rw [happ, List.foldl_cons,
        ih (setCell c w.1 w.2.1 (some w.2.2)) x y
          (wellShaped_setCell n c w.1 w.2.1 (some w.2.2) hshape) hx hy
          (fun w2 hw2 => hb w2 (by simp [hw2]))]
      congr 1
      by_cases hc : w.1 = x ∧ w.2.1 = y
      · rw [if_pos hc, ← hc.1, ← hc.2,
          getCell_setCell_self n c w.1 w.2.1 (some w.2.2) hshape
            (hb w (by simp)).1 (hb w (by simp)).2]
      · rw [if_neg hc, getCell_setCell_ne c w.1 w.2.1 x y (some w.2.2) hc]

/-- Reading a denoted write list at one cell, last writer winning. -/
def lastWriteAt (ws : List (Nat × Nat × Option EntityVal)) (x y : Nat) :
    Option EntityVal :=
  ws.foldl (fun acc w => if w.1 = x ∧ w.2.1 = y then w.2.2 else acc) none

theorem lastWriteAt_foldl_keep (x y : Nat) :
    ∀ (ws : List (Nat × Nat × Option EntityVal)) (a : Option EntityVal),
      (∀ w ∈ ws, ¬ (w.1 = x ∧ w.2.1 = y)) →
      ws.foldl (fun acc w => if w.1 = x ∧ w.2.1 = y then w.2.2 else acc) a = a := by
  intro ws
  induction ws with
  | nil => intro a _; rfl
  | cons w t ih =>
      intro a hno
      rw [List.foldl_cons, if_neg (hno w (by simp))]
      exact ih a (fun w2 hw2 => hno w2 (by simp [hw2]))

theorem lastWriteAt_of_not_mem (ws : List (Nat × Nat × Option EntityVal))
    (x y : Nat) (hno : ∀ w ∈ ws, ¬ (w.1 = x ∧ w.2.1 = y)) :
    lastWriteAt ws x y = none :=
  lastWriteAt_foldl_keep x y ws none hno

theorem lastWriteAt_of_mem (x y : Nat) :
    ∀ (ws : List (Nat × Nat × Option EntityVal)),
      (ws.map fun w => (w.1, w.2.1)).Nodup →
      ∀ w ∈ ws, (w.1 = x ∧ w.2.1 = y) → lastWriteAt ws x y = w.2.2 := by
  intro ws
  induction ws with
  | nil => intro _ w hw; cases hw
  | cons u t ih =>
      intro hnd w hw hc
      rw [List.map_cons] at hnd
      have hnd2 := List.nodup_cons.mp hnd
      rcases List.mem_cons.mp hw with hwu | hwt
      · subst hwu
        unfold lastWriteAt
        rw [List.foldl_cons, if_pos hc]
        apply lastWriteAt_foldl_keep
        intro v hv hvc
        apply hnd2.1
        rw [List.mem_map]
        exact ⟨v, hv, by rw [hvc.1, hvc.2, hc.1, hc.2]⟩
      · have hune : ¬ (u.1 = x ∧ u.2.1 = y) := by
          intro huc
          apply hnd2.1
          rw [List.mem_map]
          exact ⟨w, hwt, by rw [hc.1, hc.2, huc.1, huc.2]⟩
        unfold lastWriteAt
        rw [List.foldl_cons, if_neg hune]
        exact ih hnd2.2 w hwt hc

/-- With pairwise-distinct targets, the cell a write list leaves is
oblivious to the write order. -/
theorem lastWriteAt_perm (ws ws' : List (Nat × Nat × Option EntityVal))
    (hperm : ws.Perm ws')
    (hnd : (ws.map fun w => (w.1, w.2.1)).Nodup) (x y : Nat) :
    lastWriteAt ws x y = lastWriteAt ws' x y := by
  have hnd2 : (ws'.map fun w => (w.1, w.2.1)).Nodup :=
    ((hperm.map _).nodup_iff).mp hnd
  by_cases hex : ∃ w ∈ ws, w.1 = x ∧ w.2.1 = y
  · obtain ⟨w, hw, hc⟩ := hex
    rw [lastWriteAt_of_mem x y ws hnd w hw hc,
      lastWriteAt_of_mem x y ws' hnd2 w (hperm.subset hw) hc]
  · push_neg at hex
    rw [lastWriteAt_of_not_mem ws x y (fun w hw hc => hex w hw hc.1 hc.2),
      lastWriteAt_of_not_mem ws' x y
        (fun w hw hc => hex w (hperm.symm.subset hw) hc.1 hc.2)]

theorem bind_foldl_lastWrite (s : Store) (x y : Nat) :
    ∀ (ws : List Write) (o : Option Ref),
      Option.bind
          (ws.foldl (fun acc w => if w.1 = x ∧ w.2.1 = y then some w.2.2 else acc) o)
          (sget s)
        = (ws.map (dnote s)).foldl
            (fun acc w => if w.1 = x ∧ w.2.1 = y then w.2.2 else acc)
            (Option.bind o (sget s)) := by
  intro ws
  induction ws with
  | nil => intro o; rfl
  | cons w t ih =>
      intro o
      rw [List.foldl_cons, List.map_cons, List.foldl_cons, ih]
      congr 1
      dsimp only [dnote]
      by_cases hc : w.1 = x ∧ w.2.1 = y
      · rw [if_pos hc, if_pos hc]
        rfl
      · rw [if_neg hc, if_neg hc]

/-- The value a cell of the written next grid denotes is the last
denoted write targeting it. -/
theorem denote_applyWrites (n : Nat) (s : Store) (ws : List Write) (x y : Nat)
    (hx : x < n) (hy : y < n)
    (hb : ∀ w ∈ ws, w.1 < n ∧ w.2.1 < n) :
    denote (applyWrites (emptyCells n) ws) s x y
      = lastWriteAt (ws.map (dnote s)) x y := by
  unfold denote lastWriteAt
  rw [getCell_applyWrites n ws (emptyCells n) x y (wellShaped_empty n) hx hy hb,
    getCell_empty]
  exact bind_foldl_lastWrite s x y ws none

theorem isFishCell_denote (c : Cells) (s : Store) (x y : Nat) :
    isFishCell c s x y
      = (match denote c s x y with
          | some (.fish _) => true
          | _ => false) := by
  unfold isFishCell denote
  rcases hgc : getCell c x y with _ | r
  · rfl
  · rfl

theorem isSharkCell_denote (c : Cells) (s : Store) (x y : Nat) :
    isSharkCell c s x y
      = (match denote c s x y with
          | some (.shark _ _) => true
          | _ => false) := by
  unfold isSharkCell denote
  rcases hgc : getCell c x y with _ | r
  · rfl
  · rfl

/-- Two grids denoting the same values cell by cell tally alike. -/
theorem countEntities_of_denote (n : Nat) (c1 : Cells) (s1 : Store)
    (c2 : Cells) (s2 : Store)
    (h : ∀ p ∈ sectionPairs n 0 n, denote c1 s1 p.1 p.2 = denote c2 s2 p.1 p.2) :
    CountEntities n c1 s1 = CountEntities n c2 s2 := by
  rw [countEntities_eq, countEntities_eq]
  simp only [Prod.mk.injEq]
  constructor
  · apply List.countP_congr
    intro p hp
    rw [isFishCell_denote, isFishCell_denote, h p hp]
  · apply List.countP_congr
    intro p hp
    rw [isSharkCell_denote, isSharkCell_denote, h p hp]

/-- On a well-shaped grid whose scanned cells all hold valid references,
every cell read that yields a reference yields a valid one. -/
theorem refsValidAll (n : Nat) (curr : Cells) (store : Store)
    (hshape : wellShaped n curr)
    (hvalid : ∀ p ∈ sectionPairs n 0 n, cellRefValid curr store p = true) :
    ∀ a b r, getCell curr a b = some r → r < store.length := by
  intro a b r h
  by_cases ha : a < n
  · by_cases hb2 : b < n
    · exact cellRefValid_spec curr store (a, b)
        (hvalid (a, b) ((mem_sectionPairs n (a, b)).mpr ⟨ha, hb2⟩)) r h
    · exfalso
      rcases hrow : curr.get? a with _ | row
      · unfold getCell at h
        rw [hrow] at h
        simp at h
      · have hmem : row ∈ curr := List.get?_mem hrow
        have hlen : row.length = n := hshape.2 row hmem
        have hnone : row.get? b = none := List.get?_eq_none.mpr (by rw [hlen]; omega)
        unfold getCell at h
        rw [hrow] at h
        rw [List.get?_eq_getElem?] at hnone
        simp [hnone] at h
  · exfalso
    have hnone : curr.get? a = none := List.get?_eq_none.mpr (by rw [hshape.1]; omega)
    unfold getCell at h
    rw [hnone] at h
    simp at h

/-- Every denoted write of the fish pass carries a fish value. -/
theorem fishCellDen_vals (curr : Cells) (store0 : Store) (n : Nat) (fb : Int)
    (rng : RFun) (p : Nat × Nat) :
    ∀ d ∈ fishCellDenWrites curr store0 n fb rng p,
      ∃ bc, d.2.2 = EntityVal.fish bc := by
  unfold fishCellDenWrites fishDen
  rcases hgc : getCell curr p.1 p.2 with _ | r
  · intro d hd; simp at hd
  · dsimp only
    rcases hsg : sget store0 r with _ | v
    · intro d hd; simp at hd
    · rcases v with bc | ⟨bc, en⟩
      · dsimp only
        split
        · intro d hd
          simp at hd
          rcases hd with hd | hd <;> subst hd
          · exact ⟨0, rfl⟩
          · exact ⟨0, rfl⟩
        · intro d hd
          simp at hd
          subst hd
          exact ⟨bc + 1, rfl⟩
      · intro d hd; simp at hd

theorem fishRunWrites_bounds (curr : Cells) (n : Nat) (fb : Int) (rng : RFun)
    (hn : 1 ≤ n) :
    ∀ (l : List (Nat × Nat)) (st : St), (∀ p ∈ l, p.1 < n ∧ p.2 < n) →
      ∀ w ∈ fishRunWrites curr n fb rng l st, w.1 < n ∧ w.2.1 < n := by
  intro l
  induction l with
  | nil => intro st _ w hw; simp [fishRunWrites] at hw
  | cons p ps ih =>
      intro st hb w hw
      rw [fishRunWrites] at hw
      rcases List.mem_append.mp hw with hw | hw
      · have h := fishCellWrites_facts curr n fb rng st p hn
          (hb p (by simp)).1 (hb p (by simp)).2 w hw
        exact ⟨h.1, h.2.1⟩
      · exact ih _ (fun q hq => hb q (by simp [hq])) w hw

theorem sharkRunWrites_bounds (curr : Cells) (n : Nat) (sb se : Int) (rng : RFun)
    (hn : 1 ≤ n) :
    ∀ (l : List (Nat × Nat)) (store : Store), (∀ p ∈ l, p.1 < n ∧ p.2 < n) →
      ∀ w ∈ sharkRunWrites curr n sb se rng l store, w.1 < n ∧ w.2.1 < n := by
  intro l
  induction l with
  | nil => intro store _ w hw; simp [sharkRunWrites] at hw
  | cons p ps ih =>
      intro store hb w hw
      rw [sharkRunWrites] at hw
      rcases List.mem_append.mp hw with hw | hw
      · have h := sharkCellWrites_facts curr n sb se rng store p hn
          (hb p (by simp)).1 (hb p (by simp)).2 w hw
        exact ⟨h.1, h.2.1⟩
      · exact ih _ (fun q hq => hb q (by simp [hq])) w hw

/-- Cell-by-cell comparison of the entity values two grids denote. -/
def denoteGridEqB (n : Nat) (c1 : Cells) (s1 : Store) (c2 : Cells) (s2 : Store) :
    Bool :=
  (sectionPairs n 0 n).all fun p =>
    decide (denote c1 s1 p.1 p.2 = denote c2 s2 p.1 p.2)

/-- C5 (amended): with pairwise-distinct write targets the two dispatch
strategies agree externally — the next grids denote the same entity
value at every cell and the (fish, shark) tallies coincide — even
though the freshly allocated entities occupy different heap slots. -/
theorem C5_amended (n : Nat) (curr : Cells) (store : Store) (fb sb se : Int)
    (rng : RFun) (hn : 1 ≤ n)
    (hshape : wellShaped n curr)
    (hvalid : ∀ p ∈ sectionPairs n 0 n, cellRefValid curr store p = true)
    (hrefs : (gridRefsOf curr (sectionPairs n 0 n)).Nodup)
    (hnodup : (List.map (fun w => (w.1, w.2.1))
        (runWrites curr n fb sb se rng (sectionPairs n 0 n)
          { store := store, next := emptyCells n })).Nodup) :
    denoteGridEqB n
        (MoveEntitiesWithThreads curr store n fb sb se 1 rng).next
        (MoveEntitiesWithThreads curr store n fb sb se 1 rng).store
        (MoveEntitiesConcurrent curr store n fb sb se rng).next
        (MoveEntitiesConcurrent curr store n fb sb se rng).store = true
      ∧ CountEntities n (MoveEntitiesWithThreads curr store n fb sb se 1 rng).next
          (MoveEntitiesWithThreads curr store n fb sb se 1 rng).store
        = CountEntities n (MoveEntitiesConcurrent curr store n fb sb se rng).next
            (MoveEntitiesConcurrent curr store n fb sb se rng).store := by
  have hvalidAll := refsValidAll n curr store hshape hvalid
  have hbnds : ∀ p ∈ sectionPairs n 0 n, p.1 < n ∧ p.2 < n :=
    fun p hp => (mem_sectionPairs n p).mp hp
  have hMoveA : MoveEntitiesWithThreads curr store n fb sb se 1 rng
      = (sectionPairs n 0 n).foldl (processCell curr n fb sb se rng)
          { store := store, next := emptyCells n } := by
    have hr1 : List.range 1 = [0] := rfl
    simp [MoveEntitiesWithThreads, processSection, startRow, endRow, hr1]
  have hAnext : ((sectionPairs n 0 n).foldl (processCell curr n fb sb se rng)
        { store := store, next := emptyCells n }).next
      = applyWrites (emptyCells n)
          (runWrites curr n fb sb se rng (sectionPairs n 0 n)
            { store := store, next := emptyCells n }) :=
    processCells_next curr n fb sb se rng (sectionPairs n 0 n) _
  have hT := runWrites_dnote curr store n fb sb se rng hn hvalidAll
    (sectionPairs n 0 n) { store := store, next := emptyCells n }
    hbnds (le_refl _) hrefs (fun a b r _ => rfl) (fun p _ r _ => rfl)
  have hbT : ∀ w ∈ runWrites curr n fb sb se rng (sectionPairs n 0 n)
      { store := store, next := emptyCells n }, w.1 < n ∧ w.2.1 < n := by
    intro w hw
    have h := runWrites_facts curr n fb sb se rng hn (sectionPairs n 0 n)
      { store := store, next := emptyCells n } hbnds w hw
    exact ⟨h.1, h.2.1⟩
  have hst1 : moveFish curr n fb rng { store := store, next := emptyCells n }
      = (sectionPairs n 0 n).foldl (fishStep curr n fb rng)
          { store := store, next := emptyCells n } :=
    moveFish_eq curr n fb rng _
  have hBstore : (MoveEntitiesConcurrent curr store n fb sb se rng).store
      = (sectionPairs n 0 n).foldl (sharkStepS curr n sb se rng)
          ((sectionPairs n 0 n).foldl (fishStep curr n fb rng)
            { store := store, next := emptyCells n }).store := by
    show (moveSharksConcurrent curr n sb se rng
        { store := (moveFish curr n fb rng
            { store := store, next := emptyCells n }).store, buf := [] }).store = _
    rw [moveSharksConcurrent_eq, hst1]
    exact (sharkFold_spec curr n sb se rng (sectionPairs n 0 n) _).1
  have hfnext : ((sectionPairs n 0 n).foldl (fishStep curr n fb rng)
        { store := store, next := emptyCells n }).next
      = applyWrites (emptyCells n)
          (fishRunWrites curr n fb rng (sectionPairs n 0 n)
            { store := store, next := emptyCells n }) :=
    fishFold_next curr n fb rng (sectionPairs n 0 n) _
  have hbuf : ∀ X : Store,
      (moveSharksConcurrent curr n sb se rng { store := X, buf := [] }).buf
        = sharkRunWrites curr n sb se rng (sectionPairs n 0 n) X := by
    intro X
    rw [moveSharksConcurrent_eq,
      (sharkFold_spec curr n sb se rng (sectionPairs n 0 n)
        { store := X, buf := [] }).2]
    rfl
  have hBnext : (MoveEntitiesConcurrent curr store n fb sb se rng).next
      = applyWrites (emptyCells n)
          (fishRunWrites curr n fb rng (sectionPairs n 0 n)
              { store := store, next := emptyCells n }
            ++ sharkRunWrites curr n sb se rng (sectionPairs n 0 n)
                ((sectionPairs n 0 n).foldl (fishStep curr n fb rng)
                  { store := store, next := emptyCells n }).store) := by
    show applyWrites
        (moveFish curr n fb rng { store := store, next := emptyCells n }).next
        (moveSharksConcurrent curr n sb se rng
          { store := (moveFish curr n fb rng
              { store := store, next := emptyCells n }).store, buf := [] }).buf = _
    rw [hst1, hfnext, hbuf, ← applyWrites_append]
  have hkindExtF : KindExt store
      ((sectionPairs n 0 n).foldl (fishStep curr n fb rng)
        { store := store, next := emptyCells n }).store :=
    foldl_kindExt (fishStep curr n fb rng)
      (fun st p => fishStep_kindExt curr n fb rng st p) (sectionPairs n 0 n)
      { store := store, next := emptyCells n }
  have hCf := fishRunWrites_dnote curr store n fb rng hn hvalidAll
    (sectionPairs n 0 n) { store := store, next := emptyCells n }
    hbnds (le_refl _) hrefs (fun p _ r _ => rfl)
  have hkindsF : ∀ a b r, getCell curr a b = some r →
      optKind (sget ((sectionPairs n 0 n).foldl (fishStep curr n fb rng)
          { store := store, next := emptyCells n }).store r)
        = optKind (sget store r) :=
    fun a b r hab => optKind_of_kindExt store _ hkindExtF r (hvalidAll a b r hab)
  have hsharkSelf : ∀ p ∈ sectionPairs n 0 n, ∀ r, getCell curr p.1 p.2 = some r →
      ∀ bc en, sget store r = some (.shark bc en) →
        sget ((sectionPairs n 0 n).foldl (fishStep curr n fb rng)
          { store := store, next := emptyCells n }).store r = some (.shark bc en) :=
    fun p _ r _ bc en hs =>
      fishFold_shark_stable curr n fb rng (sectionPairs n 0 n) _ r bc en hs
  have hCs := sharkRunWrites_dnote curr store n sb se rng hn hvalidAll
    (sectionPairs n 0 n)
    ((sectionPairs n 0 n).foldl (fishStep curr n fb rng)
      { store := store, next := emptyCells n }).store
    hbnds hkindExtF.1 hrefs hkindsF hsharkSelf
  have hfish_stable : ∀ w ∈ fishRunWrites curr n fb rng (sectionPairs n 0 n)
      { store := store, next := emptyCells n },
      sget ((sectionPairs n 0 n).foldl (sharkStepS curr n sb se rng)
          ((sectionPairs n 0 n).foldl (fishStep curr n fb rng)
            { store := store, next := emptyCells n }).store) w.2.2
        = sget ((sectionPairs n 0 n).foldl (fishStep curr n fb rng)
            { store := store, next := emptyCells n }).store w.2.2 := by
    intro w hw
    have hmem : dnote ((sectionPairs n 0 n).foldl (fishStep curr n fb rng)
        { store := store, next := emptyCells n }).store w
        ∈ (fishRunWrites curr n fb rng (sectionPairs n 0 n)
            { store := store, next := emptyCells n }).map
          (dnote ((sectionPairs n 0 n).foldl (fishStep curr n fb rng)
            { store := store, next := emptyCells n }).store) :=
      List.mem_map_of_mem _ hw
    rw [hCf] at hmem
    rw [List.mem_map] at hmem
    obtain ⟨d, hd, hdi⟩ := hmem
    have hval : sget ((sectionPairs n 0 n).foldl (fishStep curr n fb rng)
        { store := store, next := emptyCells n }).store w.2.2 = some d.2.2 := by
      have h3 := congrArg (fun t : Nat × Nat × Option EntityVal => t.2.2) hdi
      dsimp only [dinj, dnote] at h3
      exact h3.symm
    obtain ⟨q, hq, hdq⟩ := List.mem_flatMap.mp hd
    obtain ⟨bc, hbc⟩ := fishCellDen_vals curr store n fb rng q d hdq
    rw [hval, hbc]
    exact sharkFoldS_fish_stable curr n sb se rng (sectionPairs n 0 n) _ w.2.2 bc
      (by rw [hval, hbc])
  have hmapF : (fishRunWrites curr n fb rng (sectionPairs n 0 n)
      { store := store, next := emptyCells n }).map
      (dnote ((sectionPairs n 0 n).foldl (sharkStepS curr n sb se rng)
        ((sectionPairs n 0 n).foldl (fishStep curr n fb rng)
          { store := store, next := emptyCells n }).store))
      = ((sectionPairs n 0 n).flatMap (fishCellDenWrites curr store n fb rng)).map
          dinj := by
    rw [← hCf]
    apply List.map_congr_left
    intro w hw
    show (w.1, w.2.1, _) = (w.1, w.2.1, _)
    rw [hfish_stable w hw]
  have hB : ((fishRunWrites curr n fb rng (sectionPairs n 0 n)
        { store := store, next := emptyCells n }
      ++ sharkRunWrites curr n sb se rng (sectionPairs n 0 n)
          ((sectionPairs n 0 n).foldl (fishStep curr n fb rng)
            { store := store, next := emptyCells n }).store).map
      (dnote ((sectionPairs n 0 n).foldl (sharkStepS curr n sb se rng)
        ((sectionPairs n 0 n).foldl (fishStep curr n fb rng)
          { store := store, next := emptyCells n }).store)))
      = ((sectionPairs n 0 n).flatMap (fishCellDenWrites curr store n fb rng)).map dinj
        ++ ((sectionPairs n 0 n).flatMap
            (sharkCellDenWrites curr store n sb se rng)).map dinj := by
    rw [List.map_append, hmapF, hCs]
  have hcoordsT : ((runWrites curr n fb sb se rng (sectionPairs n 0 n)
      { store := store, next := emptyCells n }).map
        (dnote ((sectionPairs n 0 n).foldl (processCell curr n fb sb se rng)
          { store := store, next := emptyCells n }).store)).map
        (fun w => (w.1, w.2.1))
      = (runWrites curr n fb sb se rng (sectionPairs n 0 n)
          { store := store, next := emptyCells n }).map (fun w => (w.1, w.2.1)) := by
    rw [List.map_map]
    apply List.map_congr_left
    intro w _
    rfl
  have hndDen : ((((sectionPairs n 0 n).flatMap
        (cellDenWrites curr store n fb sb se rng)).map dinj).map
        (fun w => (w.1, w.2.1))).Nodup := by
    rw [← hT, hcoordsT]
    exact hnodup
  have hperm : (((sectionPairs n 0 n).flatMap
        (cellDenWrites curr store n fb sb se rng)).map dinj).Perm
      (((sectionPairs n 0 n).flatMap (fishCellDenWrites curr store n fb rng)).map dinj
        ++ ((sectionPairs n 0 n).flatMap
            (sharkCellDenWrites curr store n sb se rng)).map dinj) := by
    rw [← List.map_append]
    apply List.Perm.map
    have hsplit : cellDenWrites curr store n fb sb se rng
        = fun p => fishCellDenWrites curr store n fb rng p
            ++ sharkCellDenWrites curr store n sb se rng p :=
      funext (cellDenWrites_split curr store n fb sb se rng)
    rw [hsplit]
    exact flatMap_append_perm _ _ (sectionPairs n 0 n)
  have hbB : ∀ w ∈ (fishRunWrites curr n fb rng (sectionPairs n 0 n)
      { store := store, next := emptyCells n }
      ++ sharkRunWrites curr n sb se rng (sectionPairs n 0 n)
        ((sectionPairs n 0 n).foldl (fishStep curr n fb rng)
          { store := store, next := emptyCells n }).store),
      w.1 < n ∧ w.2.1 < n := by
    intro w hw
    rcases List.mem_append.mp hw with hw | hw
    · exact fishRunWrites_bounds curr n fb rng hn (sectionPairs n 0 n) _ hbnds w hw
    · exact sharkRunWrites_bounds curr n sb se rng hn (sectionPairs n 0 n) _ hbnds w hw
  rw [hMoveA]
  have hdeneq : ∀ x y, x < n → y < n →
      denote ((sectionPairs n 0 n).foldl (processCell curr n fb sb se rng)
          { store := store, next := emptyCells n }).next
        ((sectionPairs n 0 n).foldl (processCell curr n fb sb se rng)
          { store := store, next := emptyCells n }).store x y
      = denote (MoveEntitiesConcurrent curr store n fb sb se rng).next
          (MoveEntitiesConcurrent curr store n fb sb se rng).store x y := by
    intro x y hx hy
    rw [hAnext, hBnext, hBstore,
      denote_applyWrites n
        ((sectionPairs n 0 n).foldl (processCell curr n fb sb se rng)
          { store := store, next := emptyCells n }).store
        (runWrites curr n fb sb se rng (sectionPairs n 0 n)
          { store := store, next := emptyCells n }) x y hx hy hbT,
      denote_applyWrites n
        ((sectionPairs n 0 n).foldl (sharkStepS curr n sb se rng)
          ((sectionPairs n 0 n).foldl (fishStep curr n fb rng)
            { store := store, next := emptyCells n }).store)
        (fishRunWrites curr n fb rng (sectionPairs n 0 n)
            { store := store, next := emptyCells n }
          ++ sharkRunWrites curr n sb se rng (sectionPairs n 0 n)
              ((sectionPairs n 0 n).foldl (fishStep curr n fb rng)
                { store := store, next := emptyCells n }).store) x y hx hy hbB,
      hT, hB]
    exact lastWriteAt_perm _ _ hperm hndDen x y
  constructor
  · unfold denoteGridEqB
    rw [List.all_eq_true]
    intro p hp
    exact decide_eq_true (hdeneq p.1 p.2 (hbnds p hp).1 (hbnds p hp).2)
  · exact countEntities_of_denote n _ _ _ _
      (fun p hp => hdeneq p.1 p.2 (hbnds p hp).1 (hbnds p hp).2)

/-- Witness: strategy agreement on a 2×2 grid holding one shark, whose
no-collision hypotheses hold by computation. -/
theorem C5_witness :
    denoteGridEqB 2
        (MoveEntitiesWithThreads [[some 0, none], [none, none]]
          [EntityVal.shark 0 5] 2 100 100 5 1 (fun _ _ _ => dirs)).next
        (MoveEntitiesWithThreads [[some 0, none], [none, none]]
          [EntityVal.shark 0 5] 2 100 100 5 1 (fun _ _ _ => dirs)).store
        (MoveEntitiesConcurrent [[some 0, none], [none, none]]
          [EntityVal.shark 0 5] 2 100 100 5 (fun _ _ _ => dirs)).next
        (MoveEntitiesConcurrent [[some 0, none], [none, none]]
          [EntityVal.shark 0 5] 2 100 100 5 (fun _ _ _ => dirs)).store = true
      ∧ CountEntities 2
          (MoveEntitiesWithThreads [[some 0, none], [none, none]]
            [EntityVal.shark 0 5] 2 100 100 5 1 (fun _ _ _ => dirs)).next
          (MoveEntitiesWithThreads [[some 0, none], [none, none]]
            [EntityVal.shark 0 5] 2 100 100 5 1 (fun _ _ _ => dirs)).store
        = CountEntities 2
            (MoveEntitiesConcurrent [[some 0, none], [none, none]]
              [EntityVal.shark 0 5] 2 100 100 5 (fun _ _ _ => dirs)).next
            (MoveEntitiesConcurrent [[some 0, none], [none, none]]
              [EntityVal.shark 0 5] 2 100 100 5 (fun _ _ _ => dirs)).store :=
  C5_amended 2 [[some 0, none], [none, none]] [EntityVal.shark 0 5] 100 100 5
    (fun _ _ _ => dirs) (by decide) ⟨rfl, by decide⟩ (by decide) (by decide) (by decide)

end WaTor
